import Mathlib

/-!
# Verification of the SKOS thesaurus extractor

A shallow embedding, in Lean 4, of the extraction/normalization engine of the
`skosclient` repository (`skosclient/extractor.py` and `skosclient/utils.py`),
together with proofs and refutations of the specification claims about it.

Modelling conventions:
* Python strings are Lean `String`s; character-level operations go through
  `String.data : List Char` (Python operates on code points, as does
  `List Char`).
* Python dicts (which preserve insertion order) are association lists
  `List (key × value)`; `d[k]` is `List.lookup k d`, `k in d` is
  `(List.lookup k d).isSome`, assignment of a fresh key appends at the end,
  assignment of an existing key replaces in place (`setA`/`updateA`), and
  `del d[k]` is `eraseA`.
* Python sets of strings accumulated during extraction are deduplicating
  insertion-ordered lists (`insertSet`); every place the claims depend on
  either sorts such a set (`sorted(list(s))`) or is order-independent, so
  the set-iteration order of CPython is not needed.
* The RDF graph (rdflib `Graph`) is a list of triples in store order;
  `graph.objects(s, p)` and `graph.subjects(predicate=p)` enumerate in
  triple order, with the multiplicity rdflib's non-unique iterators give.
* A raised Python exception (`KeyError`) is `Except.error`.
-/

namespace Skos

/-! ## Decimal rendering of a counter (Python `f"{orig}_{counter}"`) -/

/-- One decimal digit as a character (only applied to values `< 10`). -/
def digitChar (d : Nat) : Char :=
  match d with
  | 0 => '0' | 1 => '1' | 2 => '2' | 3 => '3' | 4 => '4'
  | 5 => '5' | 6 => '6' | 7 => '7' | 8 => '8' | _ => '9'

/-- Decimal digits of `n`, most significant first (`[]` for `0`). -/
def natDigitsAux (n : Nat) : List Char :=
  if h : n = 0 then []
  else natDigitsAux (n / 10) ++ [digitChar (n % 10)]
termination_by n
decreasing_by exact Nat.div_lt_self (Nat.pos_of_ne_zero h) (by omega)

/-- The decimal rendering of `n`, as Python `str(n)` produces it. -/
def natChars (n : Nat) : List Char :=
  if n = 0 then ['0'] else natDigitsAux n

/-! ## Label keys with disambiguation suffixes -/

/-- The key the label dictionary loop tries at counter value `k`
(`orig` itself for `k = 1`, `f"{orig}_{k}"` for `k ≥ 2`). -/
def suffixKey (orig : String) (k : Nat) : String :=
  if k ≤ 1 then orig else String.mk (orig.data ++ '_' :: natChars k)

/-! ## The label dictionary (`labels_to_concept`) and `_add_label_to_concept` -/

/-- The per-language label index: tagged label key → concept id, an
insertion-ordered dictionary. -/
abbrev LMap := List (String × String)

/-- `_add_label_to_concept`'s `while` loop. `fuel` bounds the number of probes;
`d.length + 1` probes always suffice (`add_label_aux_char` proves the
fuel-exhaustion branch unreachable), so the `0` case is arbitrary. -/
def add_label_aux (orig cid : String) (d : LMap) : Nat → Nat → String × LMap
  | 0, k => (suffixKey orig k, d)
  | fuel+1, k =>
    match List.lookup (suffixKey orig k) d with
    | none => (suffixKey orig k, d ++ [(suffixKey orig k, cid)])
    | some c => if c = cid then (suffixKey orig k, d) else add_label_aux orig cid d fuel (k+1)

/-- `SKOSExtractor._add_label_to_concept`: insert `label ↦ cid`, walking
`label, label_2, label_3, …` until an unused key or the same concept is found.
Returns the key used and the updated dictionary. -/
def add_label_to_concept (label cid : String) (d : LMap) : String × LMap :=
  add_label_aux label cid d (d.length + 1) 1

/-! ## Comma-separated label values (`_process_comma_separated_labels`) -/

/-- Python `str.split(sep)` for a one-character separator, on code points:
always returns at least one (possibly empty) piece. -/
def splitOnChar (sep : Char) : List Char → List (List Char)
  | [] => [[]]
  | c :: cs =>
    if c = sep then [] :: splitOnChar sep cs
    else
      match splitOnChar sep cs with
      | [] => [[c]]
      | p :: ps => (c :: p) :: ps

/-- Python `str.strip()`: drop whitespace from both ends. -/
def trimChars (cs : List Char) : List Char :=
  ((cs.dropWhile Char.isWhitespace).reverse.dropWhile Char.isWhitespace).reverse

/-- The individual labels extracted from a comma-separated value: split on
commas, strip whitespace, discard empty tokens
(`[label.strip() for label in label_str.split(',')]` plus the
`if individual_label` filter). -/
def tokensOfChars (cs : List Char) : List (List Char) :=
  ((splitOnChar ',' cs).map trimChars).filter (fun t => !t.isEmpty)

/-- `SKOSExtractor._process_comma_separated_labels`: `labelStr` is the tagged
label (kind character + raw value). If it contains a comma, the kind tag is
stripped, the remainder split/trimmed/filtered, and each token re-tagged and
inserted individually; otherwise the tagged label is inserted as-is. -/
def process_comma_separated_labels (labelStr cid : String) (d : LMap) : LMap :=
  if labelStr.data.contains ',' then
    match labelStr.data with
    | [] => d
    | t :: rest =>
      (tokensOfChars rest).foldl
        (fun acc tok => (add_label_to_concept (String.mk (t :: tok)) cid acc).2) d
  else (add_label_to_concept labelStr cid d).2

/-! ## Dictionary and set helpers -/

/-- Insertion into a Python set of strings (insertion-ordered, deduplicating). -/
def insertSet (l : List String) (x : String) : List String :=
  if x ∈ l then l else l ++ [x]

/-- Replace the value stored at key `k` (no-op on absent keys). -/
def updateA {β : Type} (m : List (String × β)) (k : String) (v : β) : List (String × β) :=
  m.map (fun p => if p.1 = k then (k, v) else p)

/-- Apply `f` to the value stored at key `k` (no-op on absent keys). -/
def modifyA {β : Type} (m : List (String × β)) (k : String) (f : β → β) : List (String × β) :=
  m.map (fun p => if p.1 = k then (k, f p.2) else p)

/-- Python dict assignment `m[k] = v`: replace in place if present, else append. -/
def setA {β : Type} (m : List (String × β)) (k : String) (v : β) : List (String × β) :=
  if (List.lookup k m).isSome then updateA m k v else m ++ [(k, v)]

/-- Python `del m[k]`. -/
def eraseA {β : Type} (m : List (String × β)) (k : String) : List (String × β) :=
  m.filter (fun p => p.1 != k)

/-! ## The RDF graph model -/

/-- An RDF node as the extractor distinguishes them: an IRI (or blank node
identifier), or a literal with its optional language tag. -/
inductive RNode where
  | iri (u : String)
  | lit (text : String) (lang : Option String)
deriving Repr, DecidableEq

/-- One triple of the store. -/
structure Triple where
  s : String
  p : String
  o : RNode
deriving Repr, DecidableEq

/-- The in-memory triple store, in store order. -/
abbrev RGraph := List Triple

/-- Python `str(node)`: the IRI text, or the literal's lexical form. -/
def nodeStr : RNode → String
  | .iri u => u
  | .lit t _ => t

/-- `graph.objects(s, p)` in store order. -/
def objectsOf (g : RGraph) (s p : String) : List RNode :=
  (g.filter (fun t => t.s == s && t.p == p)).map Triple.o

/-- `graph.subjects(predicate=p)`: one subject per matching triple
(rdflib's default non-unique iteration). -/
def subjectsOfPred (g : RGraph) (p : String) : List String :=
  (g.filter (fun t => t.p == p)).map Triple.s

/-- `graph.subjects(predicate=p, object=o)`, non-unique. -/
def subjectsOfPredObj (g : RGraph) (p : String) (o : RNode) : List String :=
  (g.filter (fun t => t.p == p && t.o == o)).map Triple.s

/-! ## Vocabulary constants (opaque predicate identifiers) -/

def skosPrefLabel : String := "skos:prefLabel"
def skosAltLabel : String := "skos:altLabel"
def skosHiddenLabel : String := "skos:hiddenLabel"
def skosBroader : String := "skos:broader"
def skosNarrower : String := "skos:narrower"
def skosRelated : String := "skos:related"
def skosDefinition : String := "skos:definition"
def skosNote : String := "skos:note"
def skosScopeNote : String := "skos:scopeNote"
def skosHistoryNote : String := "skos:historyNote"
def skosExample : String := "skos:example"
def skosEditorialNote : String := "skos:editorialNote"
def rdfType : String := "rdf:type"
def skosConceptScheme : String := "skos:ConceptScheme"
def dcTitle : String := "dc:title"
def dctermsTitle : String := "dcterms:title"
def dcDescription : String := "dc:description"
def dctermsDescription : String := "dcterms:description"
def dctermsCreator : String := "dcterms:creator"
def dctermsCreated : String := "dcterms:created"
def dctermsModified : String := "dcterms:modified"

/-! ## URI abbreviation (`_uri_to_id`, `_id_to_uri`) -/

/-- `SKOSExtractor._uri_to_id`: strip the base URI prefix when present. -/
def uri_to_id (base uri : String) : String :=
  if base.data.isPrefixOf uri.data then String.mk (uri.data.drop base.data.length) else uri

/-- The scheme test of `_id_to_uri`:
`concept_id.startswith(('http://', 'https://', 'urn:'))`. -/
def hasSchemePrefix (s : String) : Bool :=
  "http://".data.isPrefixOf s.data || "https://".data.isPrefixOf s.data ||
    "urn:".data.isPrefixOf s.data

/-- `SKOSExtractor._id_to_uri`: re-prefix the base URI unless the id already
carries one of the three absolute schemes. -/
def id_to_uri (base cid : String) : String :=
  if hasSchemePrefix cid then cid else base ++ cid

/-! ## Preferred-label resolution (the three fallback tiers) -/

/-- A literal tagged exactly with `lang`. -/
def litWithLang (lang : String) : RNode → Option String
  | .lit t (some l) => if l = lang then some t else none
  | _ => none

/-- An untagged literal. -/
def litNoLang : RNode → Option String
  | .lit t none => some t
  | _ => none

/-- Any literal at all. -/
def litAny : RNode → Option String
  | .lit t _ => some t
  | _ => none

/-- The three-tier preferred-label search shared by `_extract_labels` and
`_get_pref_label`: first literal in the exact language, else first untagged
literal, else first literal in any language. -/
def findPrefIn (os : List RNode) (lang : String) : Option String :=
  match os.findSome? (litWithLang lang) with
  | some t => some t
  | none =>
    match os.findSome? litNoLang with
    | some t => some t
    | none => os.findSome? litAny

/-- `SKOSExtractor._get_pref_label`. -/
def get_pref_label (g : RGraph) (uri lang : String) : Option String :=
  findPrefIn (objectsOf g uri skosPrefLabel) lang

/-! ## Per-language raw concept records -/

/-- The mutable concept record built by `_process_language` before
finalization (`example` is called `exampleNote` here because `example` is a
Lean keyword; it models the source's `"example"` field). -/
structure RawConcept where
  prefLabel : Option String := none
  broaderConcept : List String := []
  narrowerConcept : List String := []
  related : List String := []
  altLabel : List String := []
  definition : List String := []
  note : List String := []
  scopeNote : List String := []
  historyNote : List String := []
  exampleNote : List String := []
  editorialNote : List String := []
deriving Repr, DecidableEq

/-- The state threaded through one language's concept pass: the concept
dictionary and the label index. -/
structure LangState where
  concepts : List (String × RawConcept)
  labels : LMap
deriving Repr, DecidableEq

/-- One object of the altLabel/hiddenLabel loops of `_extract_labels`:
accepted if a literal tagged with the target language or untagged; alt labels
are also recorded on the concept; both kinds go through the comma splitter
with their kind tag. -/
def altHiddenStep (lang cid : String) (isAlt : Bool) (st : LangState) (o : RNode) : LangState :=
  match o with
  | .lit t l =>
    if l = some lang ∨ l = none then
      if isAlt then
        { concepts := modifyA st.concepts cid (fun c => { c with altLabel := insertSet c.altLabel t }),
          labels := process_comma_separated_labels (String.mk ('a' :: t.data)) cid st.labels }
      else
        { st with labels := process_comma_separated_labels (String.mk ('h' :: t.data)) cid st.labels }
    else st
  | .iri _ => st

/-- `SKOSExtractor._extract_labels`: resolve the preferred label through the
three tiers; on failure delete the concept and stop; on success record the
label, insert `"p" + label`, then run the altLabel and hiddenLabel loops. -/
def extract_labels (g : RGraph) (lang s cid : String) (st : LangState) : LangState :=
  match findPrefIn (objectsOf g s skosPrefLabel) lang with
  | none => { st with concepts := eraseA st.concepts cid }
  | some t =>
    let st1 : LangState :=
      { concepts := modifyA st.concepts cid (fun c => { c with prefLabel := some t }),
        labels := (add_label_to_concept (String.mk ('p' :: t.data)) cid st.labels).2 }
    let st2 := (objectsOf g s skosAltLabel).foldl (altHiddenStep lang cid true) st1
    (objectsOf g s skosHiddenLabel).foldl (altHiddenStep lang cid false) st2

/-- One object of a relation loop of `_extract_relations`:
`concepts[concept_id][field].add(self._uri_to_id(o))` — a `KeyError` if the
concept id is no longer a key (which happens when `_extract_labels` deleted
the concept). -/
def relStep (base cid : String) (f : RawConcept → String → RawConcept)
    (m : List (String × RawConcept)) (o : RNode) : Except String (List (String × RawConcept)) :=
  match List.lookup cid m with
  | none => .error "KeyError"
  | some c => .ok (updateA m cid (f c (uri_to_id base (nodeStr o))))

/-- `SKOSExtractor._extract_relations`: collect broader, narrower and related
targets (language-independent). -/
def extract_relations (base : String) (g : RGraph) (s cid : String)
    (m : List (String × RawConcept)) : Except String (List (String × RawConcept)) := do
  let m ← (objectsOf g s skosBroader).foldlM
    (relStep base cid (fun c rid => { c with broaderConcept := insertSet c.broaderConcept rid })) m
  let m ← (objectsOf g s skosNarrower).foldlM
    (relStep base cid (fun c rid => { c with narrowerConcept := insertSet c.narrowerConcept rid })) m
  (objectsOf g s skosRelated).foldlM
    (relStep base cid (fun c rid => { c with related := insertSet c.related rid })) m

/-- One object of a note loop of `_extract_notes`: literals tagged with the
target language or untagged are added; the dictionary access raises on a
deleted concept. -/
def noteStep (lang cid : String) (f : RawConcept → String → RawConcept)
    (m : List (String × RawConcept)) (o : RNode) : Except String (List (String × RawConcept)) :=
  match o with
  | .lit t l =>
    if l = some lang ∨ l = none then
      match List.lookup cid m with
      | none => .error "KeyError"
      | some c => .ok (updateA m cid (f c t))
    else .ok m
  | .iri _ => .ok m

/-- `SKOSExtractor._extract_notes`: the six note categories. -/
def extract_notes (g : RGraph) (lang s cid : String)
    (m : List (String × RawConcept)) : Except String (List (String × RawConcept)) := do
  let m ← (objectsOf g s skosDefinition).foldlM
    (noteStep lang cid (fun c t => { c with definition := insertSet c.definition t })) m
  let m ← (objectsOf g s skosNote).foldlM
    (noteStep lang cid (fun c t => { c with note := insertSet c.note t })) m
  let m ← (objectsOf g s skosScopeNote).foldlM
    (noteStep lang cid (fun c t => { c with scopeNote := insertSet c.scopeNote t })) m
  let m ← (objectsOf g s skosHistoryNote).foldlM
    (noteStep lang cid (fun c t => { c with historyNote := insertSet c.historyNote t })) m
  let m ← (objectsOf g s skosExample).foldlM
    (noteStep lang cid (fun c t => { c with exampleNote := insertSet c.exampleNote t })) m
  (objectsOf g s skosEditorialNote).foldlM
    (noteStep lang cid (fun c t => { c with editorialNote := insertSet c.editorialNote t })) m

/-! ## Finalized concepts -/

/-- Lexicographic comparison of code-point lists. -/
def lexLeChars : List Char → List Char → Bool
  | [], _ => true
  | _ :: _, [] => false
  | a :: as, b :: bs => if a = b then lexLeChars as bs else decide (a < b)

/-- Lexicographic comparison by code points, as Python compares strings. -/
def lexLe (a b : String) : Bool :=
  lexLeChars a.data b.data

/-- Stable insertion into a sorted list. -/
def insertSorted (x : String) : List String → List String
  | [] => [x]
  | y :: ys => if lexLe x y then x :: y :: ys else y :: insertSorted x ys

/-- Python `sorted(list(s))` on a set of strings. -/
def sortStrings (l : List String) : List String :=
  l.foldr insertSorted []

/-- A finalized relation entry `{resolvedLabel: targetId}`: the single-entry
dict is modelled as the pair (label, target id); `list(entry.values())[0]`
is `Entry.snd`. -/
abbrev Entry := String × String

/-- The finalized concept record, as serialized per language. -/
structure Concept where
  prefLabel : Option String := none
  broaderConcept : List Entry := []
  narrowerConcept : List Entry := []
  related : List Entry := []
  altLabel : List String := []
  definition : List String := []
  note : List String := []
  scopeNote : List String := []
  historyNote : List String := []
  exampleNote : List String := []
  editorialNote : List String := []
deriving Repr, DecidableEq

/-- A language's finalized concept set. -/
abbrev CMap := List (String × Concept)

/-- The `{pref_label or rel_id: rel_id}` entry built in `_finalize_concepts`
(an empty preferred label is falsy in Python, hence falls back to the id). -/
def relEntry (g : RGraph) (base lang rid : String) : Entry :=
  match get_pref_label g (id_to_uri base rid) lang with
  | some t => if t = "" then (rid, rid) else (t, rid)
  | none => (rid, rid)

/-- `SKOSExtractor._finalize_concepts`: sort the note/altLabel sets and turn
relation target ids into labelled entries. -/
def finalize_concepts (g : RGraph) (base lang : String)
    (m : List (String × RawConcept)) : CMap :=
  m.map (fun p =>
    (p.1,
     { prefLabel := p.2.prefLabel
       broaderConcept := p.2.broaderConcept.map (relEntry g base lang)
       narrowerConcept := p.2.narrowerConcept.map (relEntry g base lang)
       related := p.2.related.map (relEntry g base lang)
       altLabel := sortStrings p.2.altLabel
       definition := sortStrings p.2.definition
       note := sortStrings p.2.note
       scopeNote := sortStrings p.2.scopeNote
       historyNote := sortStrings p.2.historyNote
       exampleNote := sortStrings p.2.exampleNote
       editorialNote := sortStrings p.2.editorialNote }))

/-! ## The relation symmetrizer (`_ensure_symmetric_relations`) -/

/-- The three counters returned by `_ensure_symmetric_relations`. -/
structure RelAdded where
  broader_from_narrower : Nat
  narrower_from_broader : Nat
  related_symmetric : Nat
deriving Repr, DecidableEq

/-- The label used for a synthesized back-entry of concept `cid`:
`self._get_pref_label(self._id_to_uri(concept_id), lang) or concept_id`
(an empty label string is falsy). -/
def symLab (g : RGraph) (base lang cid : String) : String :=
  match get_pref_label g (id_to_uri base cid) lang with
  | some t => if t = "" then cid else t
  | none => cid

/-- One broader entry of the concept under scrutiny: if its target is in the
concept set and lacks a narrower entry pointing back, append one (labelled by
`lab`) and count it. -/
def broaderStep (lab : String → String) (cid : String) (st : CMap × RelAdded) (brel : Entry) :
    CMap × RelAdded :=
  match List.lookup brel.2 st.1 with
  | none => st
  | some bdata =>
    if bdata.narrowerConcept.any (fun nr => nr.2 == cid) then st
    else
      (updateA st.1 brel.2
        { bdata with narrowerConcept := bdata.narrowerConcept ++ [(lab cid, cid)] },
       { st.2 with narrower_from_broader := st.2.narrower_from_broader + 1 })

/-- One related entry of the concept under scrutiny, symmetrically. -/
def relatedStep (lab : String → String) (cid : String) (st : CMap × RelAdded) (rrel : Entry) :
    CMap × RelAdded :=
  match List.lookup rrel.2 st.1 with
  | none => st
  | some rdata =>
    if rdata.related.any (fun rr => rr.2 == cid) then st
    else
      (updateA st.1 rrel.2
        { rdata with related := rdata.related ++ [(lab cid, cid)] },
       { st.2 with related_symmetric := st.2.related_symmetric + 1 })

/-- Process one concept id of the snapshot: its broader entries, then its
related entries. Both lists are read from the concept's record at this
moment; the loops never append to the list being iterated (appends go to
`brel.2`/`rrel.2`'s record, and a self-loop always passes the `any` test), so
the snapshot matches Python's live-list iteration. -/
def symStep (lab : String → String) (st : CMap × RelAdded) (cid : String) : CMap × RelAdded :=
  match List.lookup cid st.1 with
  | none => st
  | some data =>
    let st1 := data.broaderConcept.foldl (broaderStep lab cid) st
    data.related.foldl (relatedStep lab cid) st1

/-- `SKOSExtractor._ensure_symmetric_relations`: iterate over a snapshot of
the concept ids (`list(concepts.keys())`), starting from zeroed counters. -/
def ensure_symmetric_relations (lab : String → String) (concepts : CMap) : CMap × RelAdded :=
  (concepts.map Prod.fst).foldl (symStep lab) (concepts, ⟨0, 0, 0⟩)

/-! ## One language's pass (`_process_language`) -/

/-- The per-subject body of `_process_language`'s extraction loop: create a
fresh record under the abbreviated id, then labels, relations, notes. -/
def process_concept (base : String) (g : RGraph) (lang : String) (st : LangState) (s : String) :
    Except String LangState := do
  let cid := uri_to_id base s
  let st0 : LangState := { st with concepts := setA st.concepts cid {} }
  let st1 := extract_labels g lang s cid st0
  let m2 ← extract_relations base g s cid st1.concepts
  let m3 ← extract_notes g lang s cid m2
  return { st1 with concepts := m3 }

/-- `SKOSExtractor._process_language`: iterate all subjects carrying a
preferred label, finalize, then symmetrize. Returns
(concepts, labels_to_concept, relations_added). -/
def process_language (base : String) (g : RGraph) (lang : String) :
    Except String (CMap × LMap × RelAdded) := do
  let st ← (subjectsOfPred g skosPrefLabel).foldlM (process_concept base g lang) ⟨[], []⟩
  let fin := finalize_concepts g base lang st.concepts
  let res := ensure_symmetric_relations (symLab g base lang) fin
  return (res.1, st.labels, res.2)

/-! ## Metadata extraction (`_extract_metadata`) -/

/-- `literal.language or "no-lang"` (a missing or empty tag is falsy). -/
def langKeyOf : Option String → String
  | some s => if s = "" then "no-lang" else s
  | none => "no-lang"

/-- The scheme-level fields the claims are about. `extraction_date`,
`base_uri` and the other constant fields of the Python dict carry no logic
and are omitted. -/
structure Metadata where
  title : List (String × String) := []
  description : List (String × String) := []
  creator : Option String := none
  created : Option String := none
  modified : Option String := none
deriving Repr, DecidableEq

/-- One title/description literal: keyed by language (or `"no-lang"`),
overwriting earlier values for the same key. -/
def litFieldStep (acc : List (String × String)) (o : RNode) : List (String × String) :=
  match o with
  | .lit t l => setA acc (langKeyOf l) t
  | .iri _ => acc

/-- The `for x in objects: field = str(x); break` pattern: the first object,
stringified, if any. -/
def firstObjStr (g : RGraph) (s p : String) : Option String :=
  ((objectsOf g s p).head?).map nodeStr

/-- One scheme's contribution to the metadata record: titles and descriptions
from both predicate families, then creator/created/modified, each overwritten
unconditionally whenever the scheme provides a value. -/
def metaStep (g : RGraph) (md : Metadata) (scheme : String) : Metadata :=
  let title1 := (objectsOf g scheme dcTitle).foldl litFieldStep md.title
  let title2 := (objectsOf g scheme dctermsTitle).foldl litFieldStep title1
  let desc1 := (objectsOf g scheme dcDescription).foldl litFieldStep md.description
  let desc2 := (objectsOf g scheme dctermsDescription).foldl litFieldStep desc1
  { title := title2
    description := desc2
    creator := (firstObjStr g scheme dctermsCreator).or md.creator
    created := (firstObjStr g scheme dctermsCreated).or md.created
    modified := (firstObjStr g scheme dctermsModified).or md.modified }

/-- `list(graph.subjects(RDF.type, skos:ConceptScheme))` in store order. -/
def schemesOf (g : RGraph) : List String :=
  subjectsOfPredObj g rdfType (RNode.iri skosConceptScheme)

/-- `SKOSExtractor._extract_metadata`, restricted to the fields modelled. -/
def extract_metadata (g : RGraph) : Metadata :=
  (schemesOf g).foldl (metaStep g) {}

/-- The value actually kept for a creator/created/modified field: the first
object of the last scheme that has one. Used to state what the fold computes. -/
def lastHead (g : RGraph) (p : String) : Option String :=
  ((schemesOf g).filterMap (fun sc => firstObjStr g sc p)).getLast?

/-! ## Base-URI detection (`detect_base_uri`) -/

/-- The inner `while not uri.startswith(common_prefix): common_prefix =
common_prefix[:-1]` loop, fuelled by the prefix length: each pass drops one
trailing character, and the empty list is a prefix of everything, so
`common.length` passes always reach a prefix (the fuel-0 fallback only ever
sees the empty candidate, which it returns like the loop would). -/
def shrinkCommonAux (uri : List Char) : Nat → List Char → List Char
  | 0, common => common
  | fuel+1, common =>
    if common.isPrefixOf uri then common else shrinkCommonAux uri fuel common.dropLast

def shrinkCommon (uri common : List Char) : List Char :=
  shrinkCommonAux uri common.length common

/-- Python `s.rfind('/')`, as an option (rfind's `-1` is `none`). -/
def lastSlashIdx : List Char → Option Nat
  | [] => none
  | c :: cs =>
    match lastSlashIdx cs with
    | some i => some (i + 1)
    | none => if c = '/' then some 0 else none

/-- The trailing-separator fixup of `detect_base_uri`: keep the prefix if it
already ends in `/` or `#`, else cut after the last `/` — but only when that
slash sits at a positive index (`last_slash > 0`). -/
def trimToSlash (cs : List Char) : List Char :=
  if cs.getLast? = some '/' ∨ cs.getLast? = some '#' then cs
  else
    match lastSlashIdx cs with
    | some i => if 0 < i then cs.take (i + 1) else cs
    | none => cs

/-- Python `'/'.join(pieces)`. -/
def joinSlash : List (List Char) → List Char
  | [] => []
  | [p] => p
  | p :: q :: rest => p ++ '/' :: joinSlash (q :: rest)

/-- `utils.detect_base_uri`: fixed default with no prefLabel subjects; the
split/join directory prefix with exactly one; otherwise the shrink-loop common
prefix with the trailing-separator fixup. -/
def detect_base_uri (g : RGraph) : String :=
  match subjectsOfPred g skosPrefLabel with
  | [] => "http://example.org/thesaurus/"
  | [u] => String.mk (joinSlash ((splitOnChar '/' u.data).dropLast) ++ ['/'])
  | u :: v :: rest =>
    let common := (v :: rest).foldl (fun c w => shrinkCommon w.data c) u.data
    String.mk (trimToSlash common)

/-- Character-wise longest common prefix of two strings (spec-side
formulation, used to state what the shrink loop computes). -/
def lcpPair : List Char → List Char → List Char
  | a :: as, b :: bs => if a = b then a :: lcpPair as bs else []
  | _, _ => []

/-- Spec-side restatement of the amended base-URI claim: zero subjects give
the fixed default; one subject gives everything up to and including its last
slash (just `"/"` for a slashless subject); several subjects give the
character-wise longest common prefix, trimmed back to just after its last `/`
only when it neither already ends in `/` or `#` nor lacks a slash at positive
index (`#` is not searched for when trimming). -/
def detectBaseUriSpec (g : RGraph) : String :=
  match subjectsOfPred g skosPrefLabel with
  | [] => "http://example.org/thesaurus/"
  | [u] =>
    match lastSlashIdx u.data with
    | some i => String.mk (u.data.take (i + 1))
    | none => "/"
  | u :: v :: rest =>
    let common := (v :: rest).foldl (fun c w => lcpPair c w.data) u.data
    if common.getLast? = some '/' ∨ common.getLast? = some '#' then String.mk common
    else
      match lastSlashIdx common with
      | some i => if 0 < i then String.mk (common.take (i + 1)) else String.mk common
      | none => String.mk common

/-! ## Statistics (`_calculate_statistics`) -/

/-- The last `'_'`-separated segment of a key
(`label.split('_')[-1]`; the split is never empty). -/
def lastSegment (cs : List Char) : List Char :=
  (splitOnChar '_' cs).getLastD []

/-- The duplicate-label test of `_calculate_statistics`:
`'_' in label and label.split('_')[-1].isdigit()`. -/
def isSuffixedKey (label : String) : Bool :=
  label.data.contains '_' &&
    (!(lastSegment label.data).isEmpty && (lastSegment label.data).all Char.isDigit)

/-- The `duplicate_labels_found` count over the label index keys. -/
def duplicateLabelsFound (d : LMap) : Nat :=
  (d.map Prod.fst).countP isSuffixedKey

/-- The per-language statistics record. -/
structure LangStats where
  total_concepts : Nat
  total_labels : Nat
  concepts_with_broader : Nat
  concepts_with_narrower : Nat
  concepts_with_related : Nat
  concepts_with_alt_labels : Nat
  concepts_with_definitions : Nat
  concepts_with_notes : Nat
  duplicate_labels_found : Nat
  relations_added : RelAdded
deriving Repr, DecidableEq

/-- `SKOSExtractor._calculate_statistics` (Python truthiness of a list is
non-emptiness). -/
def calculate_statistics (concepts : CMap) (labels : LMap) (added : RelAdded) : LangStats :=
  { total_concepts := concepts.length
    total_labels := labels.length
    concepts_with_broader := concepts.countP (fun p => !p.2.broaderConcept.isEmpty)
    concepts_with_narrower := concepts.countP (fun p => !p.2.narrowerConcept.isEmpty)
    concepts_with_related := concepts.countP (fun p => !p.2.related.isEmpty)
    concepts_with_alt_labels := concepts.countP (fun p => !p.2.altLabel.isEmpty)
    concepts_with_definitions := concepts.countP (fun p => !p.2.definition.isEmpty)
    concepts_with_notes := concepts.countP (fun p =>
      !p.2.definition.isEmpty || !p.2.note.isEmpty || !p.2.scopeNote.isEmpty ||
        !p.2.historyNote.isEmpty || !p.2.exampleNote.isEmpty || !p.2.editorialNote.isEmpty)
    duplicate_labels_found := duplicateLabelsFound labels
    relations_added := added }

/-- A sequence of label insertions together with the number of insertions
that came back with a disambiguation suffix (returned key ≠ submitted label).
Used to compare the statistic against the number of actual suffix events. -/
def runInsertions (pairs : List (String × String)) : LMap × Nat :=
  pairs.foldl
    (fun acc p =>
      let r := add_label_to_concept p.1 p.2 acc.1
      (r.2, acc.2 + (if r.1 = p.1 then 0 else 1)))
    ([], 0)

/-! ## Invariant vocabulary for the symmetrizer proofs -/

/-- `m'` extends `m`: same keys, broader lists unchanged, narrower and
related lists only ever grown. Every symmetrizer step has this shape. -/
def Grows (m m' : CMap) : Prop :=
  (m'.map Prod.fst = m.map Prod.fst) ∧
  ∀ k d, List.lookup k m = some d → ∃ d', List.lookup k m' = some d' ∧
    d'.broaderConcept = d.broaderConcept ∧
    (∀ e, e ∈ d.narrowerConcept → e ∈ d'.narrowerConcept) ∧
    (∀ e, e ∈ d.related → e ∈ d'.related)

/-- Entry `e` (on concept `A`) has a related back-entry at its target. -/
def RBack (m : CMap) (A : String) (e : Entry) : Prop :=
  ∀ dB, List.lookup e.2 m = some dB → ∃ e', e' ∈ dB.related ∧ e'.2 = A

/-- Entry `e` (on concept `A`) has a narrower back-entry at its target. -/
def NBack (m : CMap) (A : String) (e : Entry) : Prop :=
  ∀ dB, List.lookup e.2 m = some dB → ∃ e', e' ∈ dB.narrowerConcept ∧ e'.2 = A

/-- A step from `m` to `m'` is related-clean: every related entry present
afterwards was either already there or is immediately back-linked. -/
def StepOK (m m' : CMap) : Prop :=
  Grows m m' ∧
  ∀ A dA dA' e, List.lookup A m = some dA → List.lookup A m' = some dA' →
    e ∈ dA'.related → e ∈ dA.related ∨ RBack m' A e

/-- All broader entries of `A` are narrower-backlinked in `m`. -/
def BDone (m : CMap) (A : String) : Prop :=
  ∀ dA, List.lookup A m = some dA → ∀ e, e ∈ dA.broaderConcept → NBack m A e

/-- All related entries of `A` are related-backlinked in `m`. -/
def RDone (m : CMap) (A : String) : Prop :=
  ∀ dA, List.lookup A m = some dA → ∀ e, e ∈ dA.related → RBack m A e

/-! # Theorems

## Association-list lemmas -/

theorem lookup_cons_ite {β : Type} (k a : String) (b : β) (rest : List (String × β)) :
    List.lookup k ((a, b) :: rest) = if k = a then some b else List.lookup k rest := by
  by_cases h : k = a
  · subst h
    simp [List.lookup_cons]
  · rw [List.lookup_cons]
    have hb : (k == a) = false := beq_eq_false_iff_ne.mpr h
    rw [hb]
    simp [h]

theorem lookup_append_some {β : Type} {m₁ m₂ : List (String × β)} {k : String} {v : β}
    (h : List.lookup k m₁ = some v) : List.lookup k (m₁ ++ m₂) = some v := by
  induction m₁ with
  | nil => simp [List.lookup] at h
  | cons p rest ih =>
    obtain ⟨a, b⟩ := p
    rw [List.cons_append, lookup_cons_ite]
    rw [lookup_cons_ite] at h
    by_cases hka : k = a
    · simpa [hka] using h
    · simp only [hka, if_false] at h ⊢
      exact ih h

theorem lookup_append_none {β : Type} {m₁ : List (String × β)} {k : String}
    (h : List.lookup k m₁ = none) (m₂ : List (String × β)) :
    List.lookup k (m₁ ++ m₂) = List.lookup k m₂ := by
  induction m₁ with
  | nil => simp
  | cons p rest ih =>
    obtain ⟨a, b⟩ := p
    rw [List.cons_append, lookup_cons_ite]
    rw [lookup_cons_ite] at h
    by_cases hka : k = a
    · simp [hka] at h
    · simp only [hka, if_false] at h ⊢
      exact ih h

theorem mem_keys_of_lookup_some {β : Type} {m : List (String × β)} {k : String} {v : β}
    (h : List.lookup k m = some v) : k ∈ m.map Prod.fst := by
  induction m with
  | nil => simp [List.lookup] at h
  | cons p rest ih =>
    obtain ⟨a, b⟩ := p
    rw [lookup_cons_ite] at h
    by_cases hka : k = a
    · simp [hka]
    · simp only [hka, if_false] at h
      simp [ih h]

theorem lookup_isSome_of_mem_keys {β : Type} {m : List (String × β)} {k : String}
    (h : k ∈ m.map Prod.fst) : (List.lookup k m).isSome := by
  induction m with
  | nil => simp at h
  | cons p rest ih =>
    obtain ⟨a, b⟩ := p
    rw [lookup_cons_ite]
    by_cases hka : k = a
    · simp [hka]
    · simp only [hka, if_false]
      simp only [List.map_cons, List.mem_cons] at h
      exact ih (h.resolve_left hka)

theorem lookup_eq_none_iff_not_mem {β : Type} {m : List (String × β)} {k : String} :
    List.lookup k m = none ↔ k ∉ m.map Prod.fst := by
  constructor
  · intro h hmem
    have := lookup_isSome_of_mem_keys hmem
    rw [h] at this
    simp at this
  · intro h
    cases hl : List.lookup k m with
    | none => rfl
    | some v => exact absurd (mem_keys_of_lookup_some hl) h

theorem keys_updateA {β : Type} (m : List (String × β)) (k : String) (v : β) :
    (updateA m k v).map Prod.fst = m.map Prod.fst := by
  induction m with
  | nil => rfl
  | cons p rest ih =>
    obtain ⟨a, b⟩ := p
    by_cases hka : a = k
    · simp [updateA, hka] at ih ⊢
      exact ih
    · simp [updateA, hka] at ih ⊢
      exact ih

theorem lookup_updateA_self {β : Type} {m : List (String × β)} {k : String} {w : β}
    (h : List.lookup k m = some w) (v : β) : List.lookup k (updateA m k v) = some v := by
  induction m with
  | nil => simp [List.lookup] at h
  | cons p rest ih =>
    obtain ⟨a, b⟩ := p
    rw [lookup_cons_ite] at h
    by_cases hka : k = a
    · simp [updateA, hka, lookup_cons_ite]
    · simp only [hka, if_false] at h
      simpa [updateA, Ne.symm hka, lookup_cons_ite, hka] using ih h

theorem lookup_updateA_ne {β : Type} (m : List (String × β)) {k k' : String} (v : β)
    (h : k' ≠ k) : List.lookup k' (updateA m k v) = List.lookup k' m := by
  induction m with
  | nil => rfl
  | cons p rest ih =>
    obtain ⟨a, b⟩ := p
    by_cases hak : a = k
    · subst hak
      simpa [updateA, lookup_cons_ite, h] using ih
    · simp only [updateA, List.map_cons, hak, if_false, lookup_cons_ite] at ih ⊢
      by_cases hk'a : k' = a
      · simp [hk'a]
      · simp only [hk'a, if_false]
        exact ih

theorem lookup_modifyA_self {β : Type} {m : List (String × β)} {k : String} {w : β}
    (h : List.lookup k m = some w) (f : β → β) :
    List.lookup k (modifyA m k f) = some (f w) := by
  induction m with
  | nil => simp [List.lookup] at h
  | cons p rest ih =>
    obtain ⟨a, b⟩ := p
    rw [lookup_cons_ite] at h
    by_cases hka : k = a
    · simp only [hka, if_true] at h
      cases h
      simp [modifyA, hka, lookup_cons_ite]
    · simp only [hka, if_false] at h
      simpa [modifyA, Ne.symm hka, lookup_cons_ite, hka] using ih h

theorem lookup_modifyA_ne {β : Type} (m : List (String × β)) {k k' : String} (f : β → β)
    (h : k' ≠ k) : List.lookup k' (modifyA m k f) = List.lookup k' m := by
  induction m with
  | nil => rfl
  | cons p rest ih =>
    obtain ⟨a, b⟩ := p
    by_cases hak : a = k
    · subst hak
      simpa [modifyA, lookup_cons_ite, h] using ih
    · simp only [modifyA, List.map_cons, hak, if_false, lookup_cons_ite] at ih ⊢
      by_cases hk'a : k' = a
      · simp [hk'a]
      · simp only [hk'a, if_false]
        exact ih

/-! ## Decimal digits -/

theorem digitChar_isDigit (d : Nat) : (digitChar d).isDigit = true := by
  unfold digitChar
  split <;> decide

theorem digitChar_inj {a b : Nat} (ha : a < 10) (hb : b < 10)
    (h : digitChar a = digitChar b) : a = b := by
  interval_cases a <;> interval_cases b <;> first
    | rfl
    | (exfalso; exact absurd h (by decide))

theorem natDigitsAux_eq_digits (n : Nat) :
    natDigitsAux n = ((Nat.digits 10 n).map digitChar).reverse := by
  induction n using Nat.strong_induction_on with
  | _ n ih =>
    by_cases h : n = 0
    · subst h
      rw [natDigitsAux]
      simp
    · rw [natDigitsAux]
      rw [Nat.digits_def' (by norm_num : 1 < 10) (Nat.pos_of_ne_zero h)]
      simp only [h, dite_false, List.map_cons, List.reverse_cons]
      rw [ih (n / 10) (Nat.div_lt_self (Nat.pos_of_ne_zero h) (by omega))]

theorem mapDigitChar_inj : ∀ {l₁ l₂ : List Nat}, (∀ x ∈ l₁, x < 10) → (∀ x ∈ l₂, x < 10) →
    l₁.map digitChar = l₂.map digitChar → l₁ = l₂ := by
  intro l₁
  induction l₁ with
  | nil => intro l₂ _ _ h; cases l₂ <;> simp_all
  | cons a as ih =>
    intro l₂ h₁ h₂ h
    cases l₂ with
    | nil => simp_all
    | cons b bs =>
      simp only [List.map_cons, List.cons.injEq] at h
      have hab : a = b :=
        digitChar_inj (h₁ a (by simp)) (h₂ b (by simp)) h.1
      have : as = bs := ih (fun x hx => h₁ x (by simp [hx])) (fun x hx => h₂ x (by simp [hx])) h.2
      simp [hab, this]

theorem natChars_inj {m n : Nat} (h : natChars m = natChars n) : m = n := by
  have key : ∀ {a b : Nat}, a ≠ 0 → natChars a = natChars b → b ≠ 0 → a = b := by
    intro a b ha hab hb
    unfold natChars at hab
    simp only [ha, hb, if_false] at hab
    rw [natDigitsAux_eq_digits, natDigitsAux_eq_digits] at hab
    have := List.reverse_injective hab
    have hd := mapDigitChar_inj
      (fun x hx => Nat.digits_lt_base (by norm_num) hx)
      (fun x hx => Nat.digits_lt_base (by norm_num) hx) this
    have := congrArg (Nat.ofDigits 10) hd
    rwa [Nat.ofDigits_digits, Nat.ofDigits_digits] at this
  by_cases hm : m = 0 <;> by_cases hn : n = 0
  · omega
  · exfalso
    subst hm
    unfold natChars at h
    simp only [if_true, hn, if_false] at h
    rw [natDigitsAux_eq_digits] at h
    have hrev : (Nat.digits 10 n).map digitChar = ['0'] := by
      have := congrArg List.reverse h
      simpa using this.symm
    have : Nat.digits 10 n = [0] := by
      have := @mapDigitChar_inj (Nat.digits 10 n) [0]
        (fun x hx => Nat.digits_lt_base (by norm_num) hx)
        (by intro x hx; simp at hx; omega) (by simpa using hrev)
      exact this
    have := congrArg (Nat.ofDigits 10) this
    rw [Nat.ofDigits_digits] at this
    simp [Nat.ofDigits] at this
    exact hn this
  · exfalso
    subst hn
    unfold natChars at h
    simp only [if_true, hm, if_false] at h
    rw [natDigitsAux_eq_digits] at h
    have hrev : (Nat.digits 10 m).map digitChar = ['0'] := by
      have := congrArg List.reverse h
      simpa using this
    have : Nat.digits 10 m = [0] := by
      exact @mapDigitChar_inj (Nat.digits 10 m) [0]
        (fun x hx => Nat.digits_lt_base (by norm_num) hx)
        (by intro x hx; simp at hx; omega) (by simpa using hrev)
    have := congrArg (Nat.ofDigits 10) this
    rw [Nat.ofDigits_digits] at this
    simp [Nat.ofDigits] at this
    exact hm this
  · exact key hm h hn

theorem natChars_ne_nil (n : Nat) : natChars n ≠ [] := by
  unfold natChars
  split
  · simp
  · rw [natDigitsAux_eq_digits]
    intro hc
    have : Nat.digits 10 n = [] := by
      have := congrArg List.reverse hc
      simp at this
      cases hd : Nat.digits 10 n with
      | nil => rfl
      | cons x xs => rw [hd] at this; simp at this
    have := congrArg (Nat.ofDigits 10) this
    rw [Nat.ofDigits_digits] at this
    simp [Nat.ofDigits] at this
    omega

theorem natChars_all_digit {n : Nat} {c : Char} (h : c ∈ natChars n) : c.isDigit = true := by
  unfold natChars at h
  split at h
  · simp at h
    subst h
    decide
  · rw [natDigitsAux_eq_digits] at h
    rw [List.mem_reverse, List.mem_map] at h
    obtain ⟨d, _, rfl⟩ := h
    exact digitChar_isDigit d

theorem isDigit_ne_underscore {c : Char} (h : c.isDigit = true) : c ≠ '_' := by
  intro hc
  subst hc
  exact absurd h (by decide)

theorem isDigit_ne_comma {c : Char} (h : c.isDigit = true) : c ≠ ',' := by
  intro hc
  subst hc
  exact absurd h (by decide)

/-! ## Suffix keys -/

theorem suffixKey_one (orig : String) : suffixKey orig 1 = orig := rfl

theorem suffixKey_inj {orig : String} {j k : Nat} (hj : 1 ≤ j) (hk : 1 ≤ k)
    (h : suffixKey orig j = suffixKey orig k) : j = k := by
  unfold suffixKey at h
  by_cases h1 : j ≤ 1 <;> by_cases h2 : k ≤ 1
  · omega
  · exfalso
    simp only [h1, if_true, h2, if_false] at h
    have := congrArg String.data h
    simp only [String.data] at this
    have hlen := congrArg List.length this
    simp at hlen
  · exfalso
    simp only [h1, if_false, h2, if_true] at h
    have := congrArg String.data h
    simp only [String.data] at this
    have hlen := congrArg List.length this
    simp at hlen
  · simp only [h1, if_false, h2, if_false] at h
    have := congrArg String.data h
    simp only [String.data] at this
    have := List.append_cancel_left this
    simp only [List.cons.injEq] at this
    exact natChars_inj this.2

theorem suffixKey_data {orig : String} {k : Nat} (hk : 2 ≤ k) :
    (suffixKey orig k).data = orig.data ++ '_' :: natChars k := by
  unfold suffixKey
  have : ¬ k ≤ 1 := by omega
  simp [this]

/-! ## The `_add_label_to_concept` loop -/

/-- If every probe key below `k` is occupied by a different concept, the
chain below `k` pigeonholes into the dictionary. -/
theorem chain_length_le {d : LMap} {orig cid : String} {k : Nat}
    (hb : ∀ j, 1 ≤ j → j < k → ∃ c, List.lookup (suffixKey orig j) d = some c ∧ c ≠ cid) :
    k - 1 ≤ d.length := by
  by_contra hlt
  push_neg at hlt
  have hklarge : d.length + 1 < k := by omega
  set L := (List.range' 1 (d.length + 1)).map (suffixKey orig) with hL
  have hnd : L.Nodup := by
    apply List.Nodup.map_on
    · intro x hx y hy hxy
      rw [List.mem_range'] at hx hy
      obtain ⟨i, hi, rfl⟩ := hx
      obtain ⟨i', hi', rfl⟩ := hy
      have := suffixKey_inj (by omega) (by omega) hxy
      omega
    · exact List.nodup_range' 1 (d.length + 1)
  have hsub : ∀ x ∈ L, x ∈ d.map Prod.fst := by
    intro x hx
    rw [hL, List.mem_map] at hx
    obtain ⟨j, hj, rfl⟩ := hx
    rw [List.mem_range'] at hj
    obtain ⟨i, hi, rfl⟩ := hj
    obtain ⟨c, hc, _⟩ := hb (1 + 1 * i) (by omega) (by omega)
    exact mem_keys_of_lookup_some hc
  have h1 : L.toFinset.card = L.length := by
    rw [List.card_toFinset, List.dedup_eq_self.mpr hnd]
  have h2 : L.toFinset ⊆ (d.map Prod.fst).toFinset := by
    intro x hx
    rw [List.mem_toFinset] at hx ⊢
    exact hsub x hx
  have h3 := Finset.card_le_card h2
  have h4 := List.toFinset_card_le (d.map Prod.fst)
  have hLlen : L.length = d.length + 1 := by simp [hL]
  have h5 : (d.map Prod.fst).length = d.length := by simp
  omega

/-- Full characterization of the probe loop: starting at counter `k` with all
earlier probes known blocked and enough fuel, the loop stops at the first
counter `k'` whose key is free or already mapped to `cid`, and updates the
dictionary accordingly. -/
theorem add_label_aux_char (orig cid : String) (d : LMap) :
    ∀ (fuel k : Nat), 1 ≤ k →
    (∀ j, 1 ≤ j → j < k → ∃ c, List.lookup (suffixKey orig j) d = some c ∧ c ≠ cid) →
    d.length + 1 ≤ fuel + (k - 1) →
    ∃ k', k ≤ k' ∧
      (add_label_aux orig cid d fuel k).1 = suffixKey orig k' ∧
      (∀ j, 1 ≤ j → j < k' → ∃ c, List.lookup (suffixKey orig j) d = some c ∧ c ≠ cid) ∧
      ((List.lookup (suffixKey orig k') d = some cid ∧
        (add_label_aux orig cid d fuel k).2 = d) ∨
       (List.lookup (suffixKey orig k') d = none ∧
        (add_label_aux orig cid d fuel k).2 = d ++ [(suffixKey orig k', cid)]))
  | 0, k => by
    intro hk hb hf
    exfalso
    have := chain_length_le hb
    omega
  | fuel+1, k => by
    intro hk hb hf
    cases hl : List.lookup (suffixKey orig k) d with
    | none =>
      refine ⟨k, le_refl k, ?_, hb, Or.inr ⟨hl, ?_⟩⟩ <;> simp [add_label_aux, hl]
    | some c =>
      by_cases hc : c = cid
      · subst hc
        refine ⟨k, le_refl k, ?_, hb, Or.inl ⟨hl, ?_⟩⟩ <;> simp [add_label_aux, hl]
      · have heq : add_label_aux orig cid d (fuel+1) k = add_label_aux orig cid d fuel (k+1) := by
          simp [add_label_aux, hl, hc]
        have hb' : ∀ j, 1 ≤ j → j < k + 1 →
            ∃ c', List.lookup (suffixKey orig j) d = some c' ∧ c' ≠ cid := by
          intro j hj1 hj2
          by_cases hjk : j = k
          · subst hjk
            exact ⟨c, hl, hc⟩
          · exact hb j hj1 (by omega)
        obtain ⟨k', h1, h2, h3, h4⟩ :=
          add_label_aux_char orig cid d fuel (k+1) (by omega) hb' (by omega)
        rw [heq]
        exact ⟨k', by omega, h2, h3, h4⟩

/-- The loop, restarted on a dictionary where the chain below `K` is blocked
and `K`'s key is already mapped to `cid`, stops at `K` without modifying
anything. -/
theorem add_label_aux_stops (orig cid : String) (d : LMap) :
    ∀ (fuel k K : Nat), k ≤ K →
    (∀ j, k ≤ j → j < K → ∃ c, List.lookup (suffixKey orig j) d = some c ∧ c ≠ cid) →
    List.lookup (suffixKey orig K) d = some cid →
    K - k + 1 ≤ fuel →
    add_label_aux orig cid d fuel k = (suffixKey orig K, d)
  | 0, k, K => by
    intro h1 h2 h3 h4
    omega
  | fuel+1, k, K => by
    intro h1 h2 h3 h4
    by_cases hkK : k = K
    · subst hkK
      simp [add_label_aux, h3]
    · obtain ⟨c, hc, hcne⟩ := h2 k (le_refl k) (by omega)
      have heq : add_label_aux orig cid d (fuel+1) k = add_label_aux orig cid d fuel (k+1) := by
        simp [add_label_aux, hc, hcne]
      rw [heq]
      exact add_label_aux_stops orig cid d fuel (k+1) K (by omega)
        (fun j hj hj2 => h2 j (by omega) hj2) h3 (by omega)

/-- The characterization at the actual entry point (`fuel = d.length + 1`,
counter starting at `1`). -/
theorem add_label_char (label cid : String) (d : LMap) :
    ∃ k, 1 ≤ k ∧
      (add_label_to_concept label cid d).1 = suffixKey label k ∧
      (∀ j, 1 ≤ j → j < k → ∃ c, List.lookup (suffixKey label j) d = some c ∧ c ≠ cid) ∧
      ((List.lookup (suffixKey label k) d = some cid ∧
        (add_label_to_concept label cid d).2 = d) ∨
       (List.lookup (suffixKey label k) d = none ∧
        (add_label_to_concept label cid d).2 = d ++ [(suffixKey label k, cid)])) := by
  obtain ⟨k', h1, h2, h3, h4⟩ :=
    add_label_aux_char label cid d (d.length + 1) 1 (le_refl 1) (by omega) (by omega)
  exact ⟨k', h1, h2, h3, h4⟩

/-- Insertion only ever appends entries. -/
theorem add_label_extends (label cid : String) (d : LMap) :
    ∃ t, (add_label_to_concept label cid d).2 = d ++ t := by
  obtain ⟨k, _, _, _, h4⟩ := add_label_char label cid d
  rcases h4 with ⟨_, h⟩ | ⟨_, h⟩
  · exact ⟨[], by simp [h]⟩
  · exact ⟨[(suffixKey label k, cid)], h⟩

/-- The returned key maps to the submitted concept in the result. -/
theorem add_label_lookup_self (label cid : String) (d : LMap) :
    ∃ k, 1 ≤ k ∧ (add_label_to_concept label cid d).1 = suffixKey label k ∧
      List.lookup (suffixKey label k) (add_label_to_concept label cid d).2 = some cid := by
  obtain ⟨k, h1, h2, _, h4⟩ := add_label_char label cid d
  refine ⟨k, h1, h2, ?_⟩
  rcases h4 with ⟨hl, hd⟩ | ⟨hl, hd⟩
  · rw [hd]
    exact hl
  · rw [hd, lookup_append_none hl]
    simp [lookup_cons_ite]

/-- Re-submitting the same (label, concept) pair right away is a no-op. -/
theorem add_label_idem (label cid : String) (d : LMap) :
    add_label_to_concept label cid (add_label_to_concept label cid d).2 =
      add_label_to_concept label cid d := by
  obtain ⟨k, hk1, hkey, hchain, hcase⟩ := add_label_char label cid d
  rcases hcase with ⟨hl, hd⟩ | ⟨hl, hd⟩
  · rw [hd]
  · have hklen : k ≤ d.length + 1 := by
      have := chain_length_le hchain
      omega
    have hblocked : ∀ j, 1 ≤ j → j < k →
        ∃ c, List.lookup (suffixKey label j) (d ++ [(suffixKey label k, cid)]) = some c ∧
          c ≠ cid := by
      intro j hj1 hj2
      obtain ⟨c, hc, hcne⟩ := hchain j hj1 hj2
      exact ⟨c, lookup_append_some hc, hcne⟩
    have hhit : List.lookup (suffixKey label k) (d ++ [(suffixKey label k, cid)]) = some cid := by
      rw [lookup_append_none hl]
      simp [lookup_cons_ite]
    have hstop := add_label_aux_stops label cid (d ++ [(suffixKey label k, cid)])
      ((d ++ [(suffixKey label k, cid)]).length + 1) 1 k hk1
      (fun j hj hj2 => hblocked j hj hj2) hhit (by simp; omega)
    have hRHS : add_label_to_concept label cid d =
        (suffixKey label k, d ++ [(suffixKey label k, cid)]) := by
      have h1 : add_label_to_concept label cid d =
          ((add_label_to_concept label cid d).1, (add_label_to_concept label cid d).2) := rfl
      rw [h1, hkey, hd]
    rw [hRHS]
    exact hstop

/-- Insertion preserves key distinctness. -/
theorem add_label_nodup {label cid : String} {d : LMap}
    (h : (d.map Prod.fst).Nodup) :
    (((add_label_to_concept label cid d).2).map Prod.fst).Nodup := by
  obtain ⟨k, _, _, _, h4⟩ := add_label_char label cid d
  rcases h4 with ⟨_, hd⟩ | ⟨hl, hd⟩
  · rwa [hd]
  · rw [hd, List.map_append, List.nodup_append]
    refine ⟨h, by simp, ?_⟩
    intro x hx hy
    simp at hy
    subst hy
    exact absurd hx (lookup_eq_none_iff_not_mem.mp hl)

/-- Claim C4: every insertion sequence keeps the index keys distinct; a
label re-submitted for further distinct concepts walks the keys
`label, label_2, label_3, …` (the suffix appended to the original key,
counting up) until an unused or matching key is found; the returned key maps
to the submitted concept; and re-submitting an existing (label, concept) pair
returns the existing key without creating any entry. -/
theorem add_label_to_concept_spec (d : LMap) (label cid : String)
    (hnd : (d.map Prod.fst).Nodup) :
    ∃ k, 1 ≤ k ∧
      (add_label_to_concept label cid d).1 = suffixKey label k ∧
      (∀ j, 1 ≤ j → j < k → ∃ c, List.lookup (suffixKey label j) d = some c ∧ c ≠ cid) ∧
      ((List.lookup (suffixKey label k) d = some cid ∧
        (add_label_to_concept label cid d).2 = d) ∨
       (List.lookup (suffixKey label k) d = none ∧
        (add_label_to_concept label cid d).2 = d ++ [(suffixKey label k, cid)])) ∧
      List.lookup (suffixKey label k) (add_label_to_concept label cid d).2 = some cid ∧
      (((add_label_to_concept label cid d).2).map Prod.fst).Nodup ∧
      add_label_to_concept label cid (add_label_to_concept label cid d).2 =
        add_label_to_concept label cid d := by
  obtain ⟨k, h1, h2, h3, h4⟩ := add_label_char label cid d
  obtain ⟨k', h1', h2', h5⟩ := add_label_lookup_self label cid d
  have hkk : k = k' := suffixKey_inj h1 h1' (by rw [← h2, ← h2'])
  subst hkk
  exact ⟨k, h1, h2, h3, h4, h5, add_label_nodup hnd, add_label_idem label cid d⟩

/-- Witness for C4 on a concrete collision: inserting label `"x"` for a
second concept over `{"x" ↦ "c1"}`. -/
theorem add_label_to_concept_spec_witness :
    ∃ k, 1 ≤ k ∧
      (add_label_to_concept "x" "c2" [("x", "c1")]).1 = suffixKey "x" k ∧
      (∀ j, 1 ≤ j → j < k →
        ∃ c, List.lookup (suffixKey "x" j) [("x", "c1")] = some c ∧ c ≠ "c2") ∧
      ((List.lookup (suffixKey "x" k) [("x", "c1")] = some "c2" ∧
        (add_label_to_concept "x" "c2" [("x", "c1")]).2 = [("x", "c1")]) ∨
       (List.lookup (suffixKey "x" k) [("x", "c1")] = none ∧
        (add_label_to_concept "x" "c2" [("x", "c1")]).2 =
          [("x", "c1")] ++ [(suffixKey "x" k, "c2")])) ∧
      List.lookup (suffixKey "x" k) (add_label_to_concept "x" "c2" [("x", "c1")]).2 =
        some "c2" ∧
      (((add_label_to_concept "x" "c2" [("x", "c1")]).2).map Prod.fst).Nodup ∧
      add_label_to_concept "x" "c2" (add_label_to_concept "x" "c2" [("x", "c1")]).2 =
        add_label_to_concept "x" "c2" [("x", "c1")] :=
  add_label_to_concept_spec [("x", "c1")] "x" "c2" (by decide)

/-! ## Splitting lemmas -/

theorem splitOnChar_ne_nil (sep : Char) (cs : List Char) : splitOnChar sep cs ≠ [] := by
  induction cs with
  | nil => simp [splitOnChar]
  | cons c cs ih =>
    by_cases h : c = sep
    · simp [splitOnChar, h]
    · simp only [splitOnChar, h, if_false]
      cases hs : splitOnChar sep cs with
      | nil => simp
      | cons p ps => simp

theorem splitOnChar_append (sep : Char) (xs ys : List Char) :
    splitOnChar sep (xs ++ sep :: ys) = splitOnChar sep xs ++ splitOnChar sep ys := by
  induction xs with
  | nil => simp [splitOnChar]
  | cons c xs ih =>
    by_cases h : c = sep
    · subst h
      simp [splitOnChar, ih]
    · simp only [List.cons_append, splitOnChar, h, if_false, List.append_eq]
      rw [ih]
      cases hs : splitOnChar sep xs with
      | nil => exact absurd hs (splitOnChar_ne_nil sep xs)
      | cons p ps => rfl

theorem splitOnChar_no_sep {sep : Char} : ∀ {cs : List Char}, (∀ c ∈ cs, c ≠ sep) →
    splitOnChar sep cs = [cs] := by
  intro cs
  induction cs with
  | nil => intro _; rfl
  | cons c cs ih =>
    intro h
    have hc : c ≠ sep := h c (by simp)
    simp only [splitOnChar, hc, if_false]
    rw [ih (fun x hx => h x (by simp [hx]))]

theorem mem_splitOnChar_not_sep {sep : Char} : ∀ {cs p : List Char},
    p ∈ splitOnChar sep cs → ∀ c ∈ p, c ≠ sep := by
  intro cs
  induction cs with
  | nil =>
    intro p hp c hc
    simp [splitOnChar] at hp
    subst hp
    simp at hc
  | cons x xs ih =>
    intro p hp c hc
    by_cases hx : x = sep
    · simp only [splitOnChar, hx, if_true] at hp
      rcases List.mem_cons.mp hp with h | h
      · subst h
        simp at hc
      · exact ih h c hc
    · simp only [splitOnChar, hx, if_false] at hp
      cases hs : splitOnChar sep xs with
      | nil => exact absurd hs (splitOnChar_ne_nil sep xs)
      | cons q qs =>
        rw [hs] at hp
        rcases List.mem_cons.mp hp with h | h
        · subst h
          rcases List.mem_cons.mp hc with h2 | h2
          · subst h2
            exact hx
          · exact ih (by rw [hs]; exact List.mem_cons_self q qs) c h2
        · exact ih (by rw [hs]; simp [h]) c hc

theorem trimChars_subset {cs : List Char} : ∀ c ∈ trimChars cs, c ∈ cs := by
  intro c hc
  unfold trimChars at hc
  rw [List.mem_reverse] at hc
  have h1 := (List.dropWhile_sublist _).subset hc
  rw [List.mem_reverse] at h1
  exact (List.dropWhile_sublist _).subset h1

theorem getLastD_append_right {α : Type} (l₁ : List α) {l₂ : List α} (h : l₂ ≠ [])
    (dflt : α) : (l₁ ++ l₂).getLastD dflt = l₂.getLastD dflt := by
  rw [List.getLastD_eq_getLast?, List.getLastD_eq_getLast?, List.getLast?_append]
  cases hl : l₂.getLast? with
  | none => exact absurd (List.getLast?_isSome.mpr h) (by rw [hl]; simp)
  | some v => rfl

/-! ## The duplicate-label statistic pattern -/

theorem suffixKey_comma_free {orig : String} (h : ∀ c ∈ orig.data, c ≠ ',') (k : Nat) :
    ∀ c ∈ (suffixKey orig k).data, c ≠ ',' := by
  intro c hc
  unfold suffixKey at hc
  by_cases hk : k ≤ 1
  · simp only [hk, if_true] at hc
    exact h c hc
  · simp only [hk, if_false] at hc
    have hc' : c ∈ orig.data ++ '_' :: natChars k := hc
    rcases List.mem_append.mp hc' with h1 | h1
    · exact h c h1
    · rcases List.mem_cons.mp h1 with h2 | h2
      · subst h2
        decide
      · exact isDigit_ne_comma (natChars_all_digit h2)

theorem lastSegment_suffixKey (label : String) {k : Nat} (hk : 2 ≤ k) :
    lastSegment (suffixKey label k).data = natChars k := by
  rw [suffixKey_data hk]
  unfold lastSegment
  rw [splitOnChar_append]
  rw [@splitOnChar_no_sep '_' (natChars k)
    (fun c hc => isDigit_ne_underscore (natChars_all_digit hc))]
  rw [getLastD_append_right _ (by simp) []]
  rfl

theorem isSuffixedKey_suffixKey (label : String) {k : Nat} (hk : 2 ≤ k) :
    isSuffixedKey (suffixKey label k) = true := by
  unfold isSuffixedKey
  rw [lastSegment_suffixKey label hk]
  have h1 : (suffixKey label k).data.contains '_' = true := by
    rw [suffixKey_data hk]
    exact List.elem_iff.mpr (by simp)
  have h2 : (natChars k).isEmpty = false := by
    cases hn : natChars k with
    | nil => exact absurd hn (natChars_ne_nil k)
    | cons c cs => rfl
  have h3 : (natChars k).all Char.isDigit = true :=
    List.all_eq_true.mpr (fun c hc => natChars_all_digit hc)
  rw [h1, h2, h3]
  rfl

/-- Claim C9, amended: every key that actually received a disambiguation
suffix (the returned key differs from the submitted label) matches the
`'_' in label and label.split('_')[-1].isdigit()` pattern that
`duplicate_labels_found` counts; the statistic counts exactly the keys
matching that pattern, which can also match raw labels that never collided. -/
theorem duplicate_labels_counts_suffixed (label cid : String) (d : LMap)
    (h : (add_label_to_concept label cid d).1 ≠ label) :
    isSuffixedKey (add_label_to_concept label cid d).1 = true := by
  obtain ⟨k, hk1, hkey, _, _⟩ := add_label_char label cid d
  have hk2 : 2 ≤ k := by
    by_contra hlt
    have hk : k = 1 := by omega
    subst hk
    rw [suffixKey_one] at hkey
    exact h hkey
  rw [hkey]
  exact isSuffixedKey_suffixKey label hk2

/-- Witness for the amended C9 on a real collision (`"x"` resubmitted for a
different concept comes back as `"x_2"`, which the statistic counts). -/
theorem duplicate_labels_counts_suffixed_witness :
    isSuffixedKey (add_label_to_concept "x" "c2" [("x", "c1")]).1 = true :=
  duplicate_labels_counts_suffixed "x" "c2" [("x", "c1")] (by decide)

/-- Claim C9 counterexample: inserting the raw label `"aitem_2"` once (no
collision, no suffix event: the suffix-event count of the run is `0`) still
makes `duplicate_labels_found` report `1`, so the statistic does not equal
the number of keys that received a disambiguation suffix. -/
theorem duplicate_labels_found_cex :
    runInsertions [("aitem_2", "c1")] = ([("aitem_2", "c1")], 0) ∧
    (calculate_statistics [] [("aitem_2", "c1")] ⟨0, 0, 0⟩).duplicate_labels_found = 1 :=
  ⟨rfl, rfl⟩

/-! ## Comma-separated label processing (claim C3) -/

/-- The insertion fold over split tokens: the result extends the dictionary
with comma-free keys only, and every token ends up (possibly suffixed)
mapping to the concept. -/
theorem comma_fold_spec (t : Char) (cid : String) (ht : t ≠ ',') :
    ∀ (TS : List (List Char)) (d₀ : LMap),
      (∀ tok ∈ TS, ∀ c ∈ tok, c ≠ ',') →
      (∃ tail,
        TS.foldl (fun acc tok => (add_label_to_concept (String.mk (t :: tok)) cid acc).2) d₀ =
          d₀ ++ tail ∧
        ∀ p ∈ tail, ∀ c ∈ p.1.data, c ≠ ',') ∧
      (∀ tok ∈ TS, ∃ k, 1 ≤ k ∧
        List.lookup (suffixKey (String.mk (t :: tok)) k)
          (TS.foldl (fun acc tok' => (add_label_to_concept (String.mk (t :: tok')) cid acc).2) d₀) =
          some cid) := by
  intro TS
  induction TS with
  | nil =>
    intro d₀ _
    exact ⟨⟨[], by simp, by simp⟩, by simp⟩
  | cons tok TS ih =>
    intro d₀ hTS
    have htok : ∀ c ∈ tok, c ≠ ',' := hTS tok (by simp)
    have htokstr : ∀ c ∈ (String.mk (t :: tok)).data, c ≠ ',' := by
      intro c hc
      rcases List.mem_cons.mp hc with h | h
      · subst h
        exact ht
      · exact htok c h
    obtain ⟨k₀, hk₀, hkey₀, hchain₀, hcase₀⟩ := add_label_char (String.mk (t :: tok)) cid d₀
    have hext : ∃ t₁, (add_label_to_concept (String.mk (t :: tok)) cid d₀).2 = d₀ ++ t₁ ∧
        ∀ p ∈ t₁, ∀ c ∈ p.1.data, c ≠ ',' := by
      rcases hcase₀ with ⟨_, hd⟩ | ⟨_, hd⟩
      · exact ⟨[], by simp [hd], by simp⟩
      · refine ⟨[(suffixKey (String.mk (t :: tok)) k₀, cid)], hd, ?_⟩
        intro p hp c hc
        simp at hp
        subst hp
        exact suffixKey_comma_free htokstr k₀ c hc
    obtain ⟨t₁, ht₁, hq₁⟩ := hext
    obtain ⟨⟨tail₂, ht₂, hq₂⟩, hper⟩ :=
      ih ((add_label_to_concept (String.mk (t :: tok)) cid d₀).2)
        (fun tk hk => hTS tk (by simp [hk]))
    constructor
    · refine ⟨t₁ ++ tail₂, ?_, ?_⟩
      · rw [List.foldl_cons, ht₂, ht₁, List.append_assoc]
      · intro p hp c hc
        rcases List.mem_append.mp hp with h | h
        · exact hq₁ p h c hc
        · exact hq₂ p h c hc
    · intro tk hk
      rcases List.mem_cons.mp hk with h | h
      · subst h
        obtain ⟨k, hk1, hk2, hk3⟩ := add_label_lookup_self (String.mk (t :: tk)) cid d₀
        refine ⟨k, hk1, ?_⟩
        rw [List.foldl_cons, ht₂]
        exact lookup_append_some hk3
      · exact hper tk h

/-- Claim C3, amended: for alternate and hidden labels (kind tags `a`/`h`),
a comma-containing raw value is split on commas, trimmed, empty tokens
discarded, each remaining token re-tagged with the kind character and
inserted independently (each ends up mapping, possibly via a suffixed key,
to the concept), and no comma-containing compound key is touched. Preferred
labels do not pass through this routine (see the counterexample). -/
theorem process_comma_separated_labels_spec (t : Char) (v cid : String) (d : LMap)
    (ht : t ≠ ',') (hc : v.data.contains ',' = true) :
    (∀ tok ∈ tokensOfChars v.data,
      tok ≠ [] ∧ (∀ c ∈ tok, c ≠ ',') ∧
      ∃ k, 1 ≤ k ∧
        List.lookup (suffixKey (String.mk (t :: tok)) k)
          (process_comma_separated_labels (String.mk (t :: v.data)) cid d) = some cid) ∧
    (∀ key : String, key.data.contains ',' = true →
      List.lookup key (process_comma_separated_labels (String.mk (t :: v.data)) cid d) =
        List.lookup key d) := by
  have hcontains : (String.mk (t :: v.data)).data.contains ',' = true := by
    apply List.elem_iff.mpr
    exact List.mem_cons_of_mem t (List.elem_iff.mp hc)
  have hunfold : process_comma_separated_labels (String.mk (t :: v.data)) cid d =
      (tokensOfChars v.data).foldl
        (fun acc tok => (add_label_to_concept (String.mk (t :: tok)) cid acc).2) d := by
    unfold process_comma_separated_labels
    rw [hcontains]
    rfl
  have htoks : ∀ tok ∈ tokensOfChars v.data, ∀ c ∈ tok, c ≠ ',' := by
    intro tok htok c hctok
    unfold tokensOfChars at htok
    have h1 := (List.mem_filter.mp htok).1
    rw [List.mem_map] at h1
    obtain ⟨p, hp, rfl⟩ := h1
    exact mem_splitOnChar_not_sep hp c (trimChars_subset c hctok)
  obtain ⟨⟨tail, htail, hqtail⟩, hper⟩ := comma_fold_spec t cid ht (tokensOfChars v.data) d htoks
  constructor
  · intro tok htok
    refine ⟨?_, htoks tok htok, ?_⟩
    · unfold tokensOfChars at htok
      have h2 := (List.mem_filter.mp htok).2
      intro hnil
      subst hnil
      simp at h2
    · rw [hunfold]
      exact hper tok htok
  · intro key hkey
    rw [hunfold, htail]
    cases hl : List.lookup key d with
    | some v' => exact lookup_append_some hl
    | none =>
      rw [lookup_append_none hl]
      apply lookup_eq_none_iff_not_mem.mpr
      intro hmem
      rw [List.mem_map] at hmem
      obtain ⟨p, hp, hpk⟩ := hmem
      have := hqtail p hp
      rw [hpk] at this
      exact this ',' (List.elem_iff.mp hkey) rfl

/-- Claim C3 counterexample: a preferred label containing a comma is inserted
as one compound comma-containing key (`"pA, B"`), not split — the comma
splitting applies only to alternate and hidden labels. -/
theorem pref_label_comma_not_split_cex :
    (process_language "http://ex.org/"
        [⟨"http://ex.org/S", skosPrefLabel, RNode.lit "A, B" (some "en")⟩] "en").toOption.map
      (fun r => List.lookup "pA, B" r.2.1) = some (some "S") := rfl

/-- Witness for the amended C3: splitting `"ax, y"` for concept `"c"` into
`"ax"` and `"ay"`. -/
theorem process_comma_separated_labels_spec_witness :
    (∀ tok ∈ tokensOfChars "x, y".data,
      tok ≠ [] ∧ (∀ c ∈ tok, c ≠ ',') ∧
      ∃ k, 1 ≤ k ∧
        List.lookup (suffixKey (String.mk ('a' :: tok)) k)
          (process_comma_separated_labels (String.mk ('a' :: "x, y".data)) "c" []) = some "c") ∧
    (∀ key : String, key.data.contains ',' = true →
      List.lookup key (process_comma_separated_labels (String.mk ('a' :: "x, y".data)) "c" []) =
        List.lookup key []) :=
  process_comma_separated_labels_spec 'a' "x, y" "c" [] (by decide) (by decide)

/-! ## Identifier abbreviation round trips (claim C10) -/

/-- Claim C10 counterexample: a URI inside the base whose base-stripped
remainder itself starts with `urn:` does not round-trip, although it starts
with both the base URI and `http://`. -/
theorem uri_id_roundtrip_cex :
    "http://example.org/thesaurus/".data.isPrefixOf
      "http://example.org/thesaurus/urn:abc".data = true ∧
    id_to_uri "http://example.org/thesaurus/"
      (uri_to_id "http://example.org/thesaurus/" "http://example.org/thesaurus/urn:abc") ≠
      "http://example.org/thesaurus/urn:abc" := by
  constructor
  · decide
  · decide

/-- Claim C10, amended: the round trip `_id_to_uri ∘ _uri_to_id` restores
every URI that either starts with the base URI with a remainder not itself
starting with `http://`, `https://` or `urn:`, or lies outside the base but
starts with one of those schemes; and some URI outside the base with none of
the three schemes fails to round-trip. -/
theorem uri_id_roundtrip_spec (base u : String)
    (h : (base.data.isPrefixOf u.data = true ∧
          hasSchemePrefix (String.mk (u.data.drop base.data.length)) = false) ∨
         (base.data.isPrefixOf u.data = false ∧ hasSchemePrefix u = true)) :
    id_to_uri base (uri_to_id base u) = u ∧
    ∃ b' u' : String, id_to_uri b' (uri_to_id b' u') ≠ u' := by
  refine ⟨?_, "http://e/", "ftp://x/y", by decide⟩
  rcases h with ⟨h1, h2⟩ | ⟨h1, h2⟩
  · unfold uri_to_id
    rw [h1]
    simp only [if_true]
    unfold id_to_uri
    rw [h2]
    simp only [Bool.false_eq_true, if_false]
    obtain ⟨t, ht⟩ := List.isPrefixOf_iff_prefix.mp h1
    apply String.ext
    have hdata : (base ++ String.mk (u.data.drop base.data.length)).data =
        base.data ++ u.data.drop base.data.length := rfl
    rw [hdata, ← ht, List.drop_left]
  · unfold uri_to_id
    rw [h1]
    simp only [Bool.false_eq_true, if_false]
    unfold id_to_uri
    rw [h2]
    simp only [if_true]

/-- Witness for the amended C10 at a URI inside the base. -/
theorem uri_id_roundtrip_spec_witness :
    id_to_uri "http://e/" (uri_to_id "http://e/" "http://e/abc") = "http://e/abc" ∧
    ∃ b' u' : String, id_to_uri b' (uri_to_id b' u') ≠ u' :=
  uri_id_roundtrip_spec "http://e/" "http://e/abc" (Or.inl ⟨by decide, by decide⟩)

/-! ## Metadata extraction (claim C7) -/

/-- The `field = value if present else keep` fold keeps the last value found. -/
theorem foldl_overwrite {α β : Type} (f : α → Option β) :
    ∀ (l : List α) (init : Option β),
      l.foldl (fun acc x => (f x).or acc) init = ((l.filterMap f).getLast?).or init := by
  intro l
  induction l with
  | nil => intro init; rfl
  | cons x xs ih =>
    intro init
    rw [List.foldl_cons, ih]
    cases hfx : f x with
    | none => simp [List.filterMap_cons, hfx]
    | some v =>
      simp only [List.filterMap_cons, hfx]
      cases hfm : xs.filterMap f with
      | nil => simp
      | cons a as =>
        rw [List.getLast?_cons_cons]
        cases h2 : (a :: as).getLast? with
        | none => exact absurd (List.getLast?_isSome.mpr (show (a :: as) ≠ [] by simp)) (by rw [h2]; simp)
        | some w => rfl

theorem metaFold_creator (g : RGraph) : ∀ (l : List String) (md : Metadata),
    (l.foldl (metaStep g) md).creator =
      l.foldl (fun acc sc => (firstObjStr g sc dctermsCreator).or acc) md.creator := by
  intro l
  induction l with
  | nil => intro md; rfl
  | cons sc l ih =>
    intro md
    rw [List.foldl_cons, List.foldl_cons, ih]
    rfl

theorem metaFold_created (g : RGraph) : ∀ (l : List String) (md : Metadata),
    (l.foldl (metaStep g) md).created =
      l.foldl (fun acc sc => (firstObjStr g sc dctermsCreated).or acc) md.created := by
  intro l
  induction l with
  | nil => intro md; rfl
  | cons sc l ih =>
    intro md
    rw [List.foldl_cons, List.foldl_cons, ih]
    rfl

theorem metaFold_modified (g : RGraph) : ∀ (l : List String) (md : Metadata),
    (l.foldl (metaStep g) md).modified =
      l.foldl (fun acc sc => (firstObjStr g sc dctermsModified).or acc) md.modified := by
  intro l
  induction l with
  | nil => intro md; rfl
  | cons sc l ih =>
    intro md
    rw [List.foldl_cons, List.foldl_cons, ih]
    rfl

/-- Claim C7, amended: the creator, created and modified fields keep the
value of the **last** scheme that provides one (each scheme contributing its
first object), overwriting values from earlier schemes — not the first value
found. -/
theorem extract_metadata_last_scheme_wins (g : RGraph) :
    (extract_metadata g).creator = lastHead g dctermsCreator ∧
    (extract_metadata g).created = lastHead g dctermsCreated ∧
    (extract_metadata g).modified = lastHead g dctermsModified := by
  refine ⟨?_, ?_, ?_⟩
  · unfold extract_metadata lastHead
    rw [metaFold_creator, foldl_overwrite (fun sc => firstObjStr g sc dctermsCreator)]
    cases ((schemesOf g).filterMap fun sc => firstObjStr g sc dctermsCreator).getLast? <;> rfl
  · unfold extract_metadata lastHead
    rw [metaFold_created, foldl_overwrite (fun sc => firstObjStr g sc dctermsCreated)]
    cases ((schemesOf g).filterMap fun sc => firstObjStr g sc dctermsCreated).getLast? <;> rfl
  · unfold extract_metadata lastHead
    rw [metaFold_modified, foldl_overwrite (fun sc => firstObjStr g sc dctermsModified)]
    cases ((schemesOf g).filterMap fun sc => firstObjStr g sc dctermsModified).getLast? <;> rfl

/-- Claim C7 counterexample: with two schemes carrying creators `"A"` then
`"B"`, the first value found across schemes is `"A"`, but extraction keeps
`"B"` — later schemes overwrite earlier ones. -/
theorem extract_metadata_not_first_cex :
    (extract_metadata
      [⟨"s1", rdfType, RNode.iri skosConceptScheme⟩,
       ⟨"s2", rdfType, RNode.iri skosConceptScheme⟩,
       ⟨"s1", dctermsCreator, RNode.lit "A" none⟩,
       ⟨"s2", dctermsCreator, RNode.lit "B" none⟩]).creator = some "B" ∧
    ((schemesOf
      [⟨"s1", rdfType, RNode.iri skosConceptScheme⟩,
       ⟨"s2", rdfType, RNode.iri skosConceptScheme⟩,
       ⟨"s1", dctermsCreator, RNode.lit "A" none⟩,
       ⟨"s2", dctermsCreator, RNode.lit "B" none⟩]).filterMap
      (fun sc => firstObjStr
        [⟨"s1", rdfType, RNode.iri skosConceptScheme⟩,
         ⟨"s2", rdfType, RNode.iri skosConceptScheme⟩,
         ⟨"s1", dctermsCreator, RNode.lit "A" none⟩,
         ⟨"s2", dctermsCreator, RNode.lit "B" none⟩] sc dctermsCreator)).head? = some "A" ∧
    (some "B" : Option String) ≠ some "A" :=
  ⟨rfl, rfl, by decide⟩

/-! ## Missing preferred labels (claim C2) -/

/-- Claim C2 (code bug): a subject whose `skos:prefLabel` objects contain no
literal under any of the three tiers is deleted from the concept dict, but
when it also carries a `skos:broader` triple, `_extract_relations`
dereferences the deleted key (`concepts[concept_id]`) and raises `KeyError`
instead of silently excluding the concept. With no relation or note triples
the exclusion is indeed silent, as the second conjunct shows. -/
theorem missing_pref_label_keyerror_cex :
    process_language "http://ex.org/"
      [⟨"http://ex.org/S", skosPrefLabel, RNode.iri "http://ex.org/X"⟩,
       ⟨"http://ex.org/S", skosBroader, RNode.iri "http://ex.org/T"⟩] "en" =
      Except.error "KeyError" ∧
    process_language "http://ex.org/"
      [⟨"http://ex.org/S", skosPrefLabel, RNode.iri "http://ex.org/X"⟩] "en" =
      Except.ok ([], [], ⟨0, 0, 0⟩) :=
  ⟨rfl, rfl⟩

/-! ## Growth lemmas for the symmetrizer -/

theorem Grows_refl (m : CMap) : Grows m m :=
  ⟨rfl, fun _ d h => ⟨d, h, rfl, fun _ he => he, fun _ he => he⟩⟩

theorem Grows_trans {m₁ m₂ m₃ : CMap} (h₁ : Grows m₁ m₂) (h₂ : Grows m₂ m₃) :
    Grows m₁ m₃ := by
  refine ⟨h₂.1.trans h₁.1, ?_⟩
  intro k d hk
  obtain ⟨d', hd', hb', hn', hr'⟩ := h₁.2 k d hk
  obtain ⟨d'', hd'', hb'', hn'', hr''⟩ := h₂.2 k d' hd'
  exact ⟨d'', hd'', hb''.trans hb', fun e he => hn'' e (hn' e he), fun e he => hr'' e (hr' e he)⟩

theorem Grows_lookup_back {m m' : CMap} (h : Grows m m') {k : String} {d' : Concept}
    (h' : List.lookup k m' = some d') : ∃ d, List.lookup k m = some d := by
  have hmem : k ∈ m.map Prod.fst := by
    rw [← h.1]
    exact mem_keys_of_lookup_some h'
  have := lookup_isSome_of_mem_keys hmem
  cases hl : List.lookup k m with
  | none => rw [hl] at this; simp at this
  | some d => exact ⟨d, rfl⟩

theorem broaderStep_grows (lab : String → String) (cid : String) (st : CMap × RelAdded)
    (b : Entry) : Grows st.1 (broaderStep lab cid st b).1 := by
  unfold broaderStep
  cases hl : List.lookup b.2 st.1 with
  | none => exact Grows_refl _
  | some bdata =>
    by_cases ha : (bdata.narrowerConcept.any fun nr => nr.2 == cid) = true
    · simp only [ha, if_true]
      exact Grows_refl _
    · simp only [ha, Bool.false_eq_true, if_false]
      constructor
      · exact keys_updateA _ _ _
      · intro k d hk
        by_cases hkb : k = b.2
        · subst hkb
          rw [hl] at hk
          cases hk
          exact ⟨_, lookup_updateA_self hl _, rfl,
            fun e he => List.mem_append_left _ he, fun e he => he⟩
        · exact ⟨d, by rw [lookup_updateA_ne _ _ hkb]; exact hk, rfl,
            fun e he => he, fun e he => he⟩

theorem relatedStep_grows (lab : String → String) (cid : String) (st : CMap × RelAdded)
    (r : Entry) : Grows st.1 (relatedStep lab cid st r).1 := by
  unfold relatedStep
  cases hl : List.lookup r.2 st.1 with
  | none => exact Grows_refl _
  | some rdata =>
    by_cases ha : (rdata.related.any fun rr => rr.2 == cid) = true
    · simp only [ha, if_true]
      exact Grows_refl _
    · simp only [ha, Bool.false_eq_true, if_false]
      constructor
      · exact keys_updateA _ _ _
      · intro k d hk
        by_cases hkr : k = r.2
        · subst hkr
          rw [hl] at hk
          cases hk
          exact ⟨_, lookup_updateA_self hl _, rfl,
            fun e he => he, fun e he => List.mem_append_left _ he⟩
        · exact ⟨d, by rw [lookup_updateA_ne _ _ hkr]; exact hk, rfl,
            fun e he => he, fun e he => he⟩

theorem foldl_grows {α : Type} (f : CMap × RelAdded → α → CMap × RelAdded)
    (h : ∀ s a, Grows s.1 (f s a).1) :
    ∀ (l : List α) (s : CMap × RelAdded), Grows s.1 ((l.foldl f s).1) := by
  intro l
  induction l with
  | nil => intro s; exact Grows_refl _
  | cons a l ih =>
    intro s
    rw [List.foldl_cons]
    exact Grows_trans (h s a) (ih (f s a))

theorem symStep_grows (lab : String → String) (st : CMap × RelAdded) (cid : String) :
    Grows st.1 (symStep lab st cid).1 := by
  unfold symStep
  cases hl : List.lookup cid st.1 with
  | none => exact Grows_refl _
  | some data =>
    exact Grows_trans
      (foldl_grows _ (broaderStep_grows lab cid) data.broaderConcept st)
      (foldl_grows _ (relatedStep_grows lab cid) data.related _)

theorem ensure_grows (lab : String → String) (concepts : CMap) :
    Grows concepts (ensure_symmetric_relations lab concepts).1 := by
  unfold ensure_symmetric_relations
  exact foldl_grows _ (fun s a => symStep_grows lab s a) (concepts.map Prod.fst)
    (concepts, ⟨0, 0, 0⟩)

/-! ## One-directionality (claim C5) -/

theorem foldl_invariant {σ α : Type} (f : σ → α → σ) (P : σ → Prop)
    (h : ∀ s a, P s → P (f s a)) : ∀ (l : List α) (s : σ), P s → P (l.foldl f s) := by
  intro l
  induction l with
  | nil => intro s hs; exact hs
  | cons a l ih =>
    intro s hs
    rw [List.foldl_cons]
    exact ih (f s a) (h s a hs)

theorem broaderStep_bfn (lab : String → String) (cid : String) (st : CMap × RelAdded)
    (b : Entry) :
    (broaderStep lab cid st b).2.broader_from_narrower = st.2.broader_from_narrower := by
  unfold broaderStep
  cases List.lookup b.2 st.1 with
  | none => rfl
  | some bdata =>
    by_cases ha : (bdata.narrowerConcept.any fun nr => nr.2 == cid) = true <;> simp [ha]

theorem relatedStep_bfn (lab : String → String) (cid : String) (st : CMap × RelAdded)
    (r : Entry) :
    (relatedStep lab cid st r).2.broader_from_narrower = st.2.broader_from_narrower := by
  unfold relatedStep
  cases List.lookup r.2 st.1 with
  | none => rfl
  | some rdata =>
    by_cases ha : (rdata.related.any fun rr => rr.2 == cid) = true <;> simp [ha]

theorem symStep_bfn (lab : String → String) (st : CMap × RelAdded) (cid : String) :
    (symStep lab st cid).2.broader_from_narrower = st.2.broader_from_narrower := by
  unfold symStep
  cases List.lookup cid st.1 with
  | none => rfl
  | some data =>
    have h1 := foldl_invariant (broaderStep lab cid)
      (fun s => s.2.broader_from_narrower = st.2.broader_from_narrower)
      (fun s a hs => (broaderStep_bfn lab cid s a).trans hs) data.broaderConcept st rfl
    exact foldl_invariant (relatedStep lab cid)
      (fun s => s.2.broader_from_narrower = st.2.broader_from_narrower)
      (fun s a hs => (relatedStep_bfn lab cid s a).trans hs) data.related _ h1

/-- Claim C5: symmetry closure is one-directional — the symmetrizer never
appends to any concept's `broaderConcept` list (every concept's broader list
is exactly what it was before the run), and `broader_from_narrower` is `0`
after every run. -/
theorem ensure_symmetric_relations_one_directional (lab : String → String) (concepts : CMap) :
    (ensure_symmetric_relations lab concepts).2.broader_from_narrower = 0 ∧
    ∀ cid,
      (List.lookup cid (ensure_symmetric_relations lab concepts).1).map Concept.broaderConcept =
        (List.lookup cid concepts).map Concept.broaderConcept := by
  constructor
  · unfold ensure_symmetric_relations
    exact foldl_invariant (symStep lab) (fun s => s.2.broader_from_narrower = 0)
      (fun s a hs => (symStep_bfn lab s a).trans hs) (concepts.map Prod.fst)
      (concepts, ⟨0, 0, 0⟩) rfl
  · intro cid
    have hg := ensure_grows lab concepts
    cases hl : List.lookup cid concepts with
    | some d =>
      obtain ⟨d', hd', hb, _, _⟩ := hg.2 cid d hl
      rw [hd']
      simp [hb]
    | none =>
      have hnone : List.lookup cid (ensure_symmetric_relations lab concepts).1 = none := by
        apply lookup_eq_none_iff_not_mem.mpr
        rw [hg.1]
        exact lookup_eq_none_iff_not_mem.mp hl
      rw [hnone]

/-! ## Symmetry machinery (claim C1) -/

theorem NBack_mono {m m' : CMap} (h : Grows m m') {cid : String} {e : Entry}
    (hb : NBack m cid e) : NBack m' cid e := by
  intro dB hdB
  obtain ⟨dB₀, hdB₀⟩ := Grows_lookup_back h hdB
  obtain ⟨e', he', he2⟩ := hb dB₀ hdB₀
  obtain ⟨dB₁, hdB₁, _, hn, _⟩ := h.2 e.2 dB₀ hdB₀
  have hid : dB₁ = dB := by
    rw [hdB] at hdB₁
    exact (Option.some.inj hdB₁).symm
  subst hid
  exact ⟨e', hn e' he', he2⟩

theorem RBack_mono {m m' : CMap} (h : Grows m m') {cid : String} {e : Entry}
    (hb : RBack m cid e) : RBack m' cid e := by
  intro dB hdB
  obtain ⟨dB₀, hdB₀⟩ := Grows_lookup_back h hdB
  obtain ⟨e', he', he2⟩ := hb dB₀ hdB₀
  obtain ⟨dB₁, hdB₁, _, _, hr⟩ := h.2 e.2 dB₀ hdB₀
  have hid : dB₁ = dB := by
    rw [hdB] at hdB₁
    exact (Option.some.inj hdB₁).symm
  subst hid
  exact ⟨e', hr e' he', he2⟩

theorem StepOK_refl (m : CMap) : StepOK m m := by
  refine ⟨Grows_refl m, ?_⟩
  intro A dA dA' e hA hA' he'
  have hid : dA' = dA := by
    rw [hA] at hA'
    exact (Option.some.inj hA').symm
  subst hid
  exact Or.inl he'

theorem StepOK_trans {m₁ m₂ m₃ : CMap} (h₁ : StepOK m₁ m₂) (h₂ : StepOK m₂ m₃) :
    StepOK m₁ m₃ := by
  refine ⟨Grows_trans h₁.1 h₂.1, ?_⟩
  intro A dA dA'' e hA hA'' he''
  obtain ⟨dA', hA', _, _, _⟩ := h₁.1.2 A dA hA
  rcases h₂.2 A dA' dA'' e hA' hA'' he'' with hold | hback
  · rcases h₁.2 A dA dA' e hA hA' hold with hold₁ | hback₁
    · exact Or.inl hold₁
    · exact Or.inr (RBack_mono h₂.1 hback₁)
  · exact Or.inr hback

/-- A broader step never changes any related list. -/
theorem broaderStep_related (lab : String → String) (cid : String) (st : CMap × RelAdded)
    (b : Entry) (k : String) :
    (List.lookup k (broaderStep lab cid st b).1).map Concept.related =
      (List.lookup k st.1).map Concept.related := by
  unfold broaderStep
  cases hl : List.lookup b.2 st.1 with
  | none => rfl
  | some bdata =>
    by_cases ha : (bdata.narrowerConcept.any fun nr => nr.2 == cid) = true
    · simp only [ha, if_true]
    · simp only [ha, Bool.false_eq_true, if_false]
      by_cases hkb : k = b.2
      · subst hkb
        rw [hl, lookup_updateA_self hl]
        rfl
      · rw [lookup_updateA_ne _ _ hkb]

theorem broaderFold_related (lab : String → String) (cid : String) :
    ∀ (bs : List Entry) (st : CMap × RelAdded) (k : String),
      (List.lookup k ((bs.foldl (broaderStep lab cid) st).1)).map Concept.related =
        (List.lookup k st.1).map Concept.related := by
  intro bs
  induction bs with
  | nil => intro st k; rfl
  | cons b bs ih =>
    intro st k
    rw [List.foldl_cons, ih, broaderStep_related]

theorem broaderStep_stepOK (lab : String → String) (cid : String) (st : CMap × RelAdded)
    (b : Entry) : StepOK st.1 (broaderStep lab cid st b).1 := by
  refine ⟨broaderStep_grows lab cid st b, ?_⟩
  intro A dA dA' e hA hA' he'
  left
  have h := broaderStep_related lab cid st b A
  rw [hA, hA'] at h
  have h2 : dA'.related = dA.related := Option.some.inj h
  rw [← h2]
  exact he'

/-- A broader step makes its own entry narrower-backlinked. -/
theorem broaderStep_establishes (lab : String → String) (cid : String)
    (st : CMap × RelAdded) (b : Entry) :
    NBack (broaderStep lab cid st b).1 cid b := by
  unfold broaderStep
  cases hl : List.lookup b.2 st.1 with
  | none =>
    intro dB hdB
    rw [hl] at hdB
    cases hdB
  | some bdata =>
    by_cases ha : (bdata.narrowerConcept.any fun nr => nr.2 == cid) = true
    · simp only [ha, if_true]
      intro dB hdB
      have hid : dB = bdata := by
        rw [hl] at hdB
        exact (Option.some.inj hdB).symm
      subst hid
      obtain ⟨nr, hnr, hnr2⟩ := List.any_eq_true.mp ha
      exact ⟨nr, hnr, beq_iff_eq.mp hnr2⟩
    · simp only [ha, Bool.false_eq_true, if_false]
      intro dB hdB
      have h2 := lookup_updateA_self hl
        { bdata with narrowerConcept := bdata.narrowerConcept ++ [(lab cid, cid)] }
      have hid : dB = { bdata with narrowerConcept := bdata.narrowerConcept ++ [(lab cid, cid)] } := by
        rw [h2] at hdB
        exact (Option.some.inj hdB).symm
      subst hid
      exact ⟨(lab cid, cid), List.mem_append_right _ (by simp), rfl⟩

/-- A related step makes its own entry related-backlinked. -/
theorem relatedStep_establishes (lab : String → String) (cid : String)
    (st : CMap × RelAdded) (r : Entry) :
    RBack (relatedStep lab cid st r).1 cid r := by
  unfold relatedStep
  cases hl : List.lookup r.2 st.1 with
  | none =>
    intro dB hdB
    rw [hl] at hdB
    cases hdB
  | some rdata =>
    by_cases ha : (rdata.related.any fun rr => rr.2 == cid) = true
    · simp only [ha, if_true]
      intro dB hdB
      have hid : dB = rdata := by
        rw [hl] at hdB
        exact (Option.some.inj hdB).symm
      subst hid
      obtain ⟨rr, hrr, hrr2⟩ := List.any_eq_true.mp ha
      exact ⟨rr, hrr, beq_iff_eq.mp hrr2⟩
    · simp only [ha, Bool.false_eq_true, if_false]
      intro dB hdB
      have h2 := lookup_updateA_self hl
        { rdata with related := rdata.related ++ [(lab cid, cid)] }
      have hid : dB = { rdata with related := rdata.related ++ [(lab cid, cid)] } := by
        rw [h2] at hdB
        exact (Option.some.inj hdB).symm
      subst hid
      exact ⟨(lab cid, cid), List.mem_append_right _ (by simp), rfl⟩

/-- A related step is related-clean, provided the entry it processes really
sits on concept `cid`'s related list. -/
theorem relatedStep_stepOK (lab : String → String) (cid : String) (st : CMap × RelAdded)
    (r : Entry) (hr : ∃ dC, List.lookup cid st.1 = some dC ∧ r ∈ dC.related) :
    StepOK st.1 (relatedStep lab cid st r).1 := by
  refine ⟨relatedStep_grows lab cid st r, ?_⟩
  intro A dA dA' e hA hA' he'
  cases hl : List.lookup r.2 st.1 with
  | none =>
    have hstep : (relatedStep lab cid st r).1 = st.1 := by
      unfold relatedStep
      rw [hl]
    rw [hstep] at hA'
    have hid : dA' = dA := by
      rw [hA] at hA'
      exact (Option.some.inj hA').symm
    subst hid
    exact Or.inl he'
  | some rdata =>
    by_cases ha : (rdata.related.any fun rr => rr.2 == cid) = true
    · have hstep : (relatedStep lab cid st r).1 = st.1 := by
        unfold relatedStep
        rw [hl]
        simp [ha]
      rw [hstep] at hA'
      have hid : dA' = dA := by
        rw [hA] at hA'
        exact (Option.some.inj hA').symm
      subst hid
      exact Or.inl he'
    · set REC := { rdata with related := rdata.related ++ [(lab cid, cid)] } with hREC
      have hstep : (relatedStep lab cid st r).1 = updateA st.1 r.2 REC := by
        unfold relatedStep
        rw [hl]
        simp only [ha, Bool.false_eq_true, if_false]
      by_cases hAr : A = r.2
      · have hda : dA = rdata := by
          rw [hAr, hl] at hA
          exact (Option.some.inj hA).symm
        have hda' : dA' = REC := by
          rw [hstep, hAr, lookup_updateA_self hl] at hA'
          exact (Option.some.inj hA').symm
        have he'2 : e ∈ rdata.related ++ [(lab cid, cid)] := by
          rw [hda', hREC] at he'
          exact he'
        rcases List.mem_append.mp he'2 with hO | hN
        · rw [hda]
          exact Or.inl hO
        · right
          have he2 : e.2 = cid := by
            have : e = (lab cid, cid) := by simpa using hN
            rw [this]
          intro dB hdB
          obtain ⟨dC, hdC, hrdC⟩ := hr
          rw [he2, hstep] at hdB
          by_cases hcr : cid = r.2
          · have hdc2 : dC = rdata := by
              rw [hcr, hl] at hdC
              exact (Option.some.inj hdC).symm
            have hdb2 : dB = REC := by
              rw [hcr, lookup_updateA_self hl] at hdB
              exact (Option.some.inj hdB).symm
            refine ⟨r, ?_, hAr.symm⟩
            rw [hdb2, hREC]
            exact List.mem_append_left _ (by rw [← hdc2]; exact hrdC)
          · have hdb2 : dB = dC := by
              rw [lookup_updateA_ne st.1 _ hcr, hdC] at hdB
              exact (Option.some.inj hdB).symm
            rw [hdb2]
            exact ⟨r, hrdC, hAr.symm⟩
      · have hid : dA' = dA := by
          rw [hstep, lookup_updateA_ne st.1 _ hAr, hA] at hA'
          exact (Option.some.inj hA').symm
        subst hid
        exact Or.inl he'

/-- After the broader fold, every processed broader entry is backlinked. -/
theorem broaderFold_sat (lab : String → String) (cid : String) :
    ∀ (bs : List Entry) (st : CMap × RelAdded),
      ∀ b ∈ bs, NBack ((bs.foldl (broaderStep lab cid) st).1) cid b := by
  intro bs
  induction bs with
  | nil =>
    intro st b hb
    simp at hb
  | cons b₀ bs ih =>
    intro st b hb
    rw [List.foldl_cons]
    rcases List.mem_cons.mp hb with h | h
    · subst h
      exact NBack_mono (foldl_grows _ (broaderStep_grows lab cid) bs _)
        (broaderStep_establishes lab cid st b)
    · exact ih (broaderStep lab cid st b₀) b h

theorem broaderFold_stepOK (lab : String → String) (cid : String) :
    ∀ (bs : List Entry) (st : CMap × RelAdded),
      StepOK st.1 ((bs.foldl (broaderStep lab cid) st).1) := by
  intro bs
  induction bs with
  | nil => intro st; exact StepOK_refl _
  | cons b bs ih =>
    intro st
    rw [List.foldl_cons]
    exact StepOK_trans (broaderStep_stepOK lab cid st b) (ih (broaderStep lab cid st b))

/-- The related fold is related-clean and backlinks every processed entry,
provided the processed entries all sit on `cid`'s current related list. -/
theorem relatedFold_sat (lab : String → String) (cid : String) :
    ∀ (rs : List Entry) (st : CMap × RelAdded),
      (∀ r ∈ rs, ∃ dC, List.lookup cid st.1 = some dC ∧ r ∈ dC.related) →
      StepOK st.1 ((rs.foldl (relatedStep lab cid) st).1) ∧
      (∀ r ∈ rs, RBack ((rs.foldl (relatedStep lab cid) st).1) cid r) := by
  intro rs
  induction rs with
  | nil =>
    intro st _
    exact ⟨StepOK_refl _, by simp⟩
  | cons r₀ rs ih =>
    intro st hprov
    have hso₁ : StepOK st.1 (relatedStep lab cid st r₀).1 :=
      relatedStep_stepOK lab cid st r₀ (hprov r₀ (by simp))
    have hprov' : ∀ r ∈ rs, ∃ dC,
        List.lookup cid (relatedStep lab cid st r₀).1 = some dC ∧ r ∈ dC.related := by
      intro r hmem
      obtain ⟨dC, hdC, hr⟩ := hprov r (by simp [hmem])
      obtain ⟨dC', hdC', _, _, hrel⟩ := hso₁.1.2 cid dC hdC
      exact ⟨dC', hdC', hrel r hr⟩
    obtain ⟨hso₂, hsat₂⟩ := ih (relatedStep lab cid st r₀) hprov'
    constructor
    · rw [List.foldl_cons]
      exact StepOK_trans hso₁ hso₂
    · intro r hmem
      rw [List.foldl_cons]
      rcases List.mem_cons.mp hmem with h | h
      · subst h
        exact RBack_mono hso₂.1 (relatedStep_establishes lab cid st r)
      · exact hsat₂ r h

theorem symStep_stepOK (lab : String → String) (st : CMap × RelAdded) (cid : String) :
    StepOK st.1 (symStep lab st cid).1 := by
  unfold symStep
  cases hl : List.lookup cid st.1 with
  | none => exact StepOK_refl _
  | some data =>
    have hso₁ := broaderFold_stepOK lab cid data.broaderConcept st
    have hprov : ∀ r ∈ data.related, ∃ dC,
        List.lookup cid ((data.broaderConcept.foldl (broaderStep lab cid) st).1) = some dC ∧
          r ∈ dC.related := by
      intro r hmem
      obtain ⟨dC, hdC, _, _, hrel⟩ := hso₁.1.2 cid data hl
      exact ⟨dC, hdC, hrel r hmem⟩
    exact StepOK_trans hso₁
      (relatedFold_sat lab cid data.related (data.broaderConcept.foldl (broaderStep lab cid) st)
        hprov).1

/-- One `symStep` makes its own concept fully done. -/
theorem symStep_done (lab : String → String) (st : CMap × RelAdded) (cid : String) :
    BDone (symStep lab st cid).1 cid ∧ RDone (symStep lab st cid).1 cid := by
  cases hl : List.lookup cid st.1 with
  | none =>
    have hstep : (symStep lab st cid).1 = st.1 := by
      unfold symStep
      rw [hl]
    constructor
    · intro dA hdA
      rw [hstep, hl] at hdA
      cases hdA
    · intro dA hdA
      rw [hstep, hl] at hdA
      cases hdA
  | some data =>
    have hstep : (symStep lab st cid).1 =
        ((data.related.foldl (relatedStep lab cid)
          (data.broaderConcept.foldl (broaderStep lab cid) st)).1) := by
      unfold symStep
      rw [hl]
    have hg01 : Grows st.1 ((data.broaderConcept.foldl (broaderStep lab cid) st).1) :=
      foldl_grows _ (broaderStep_grows lab cid) data.broaderConcept st
    have hg12 : Grows ((data.broaderConcept.foldl (broaderStep lab cid) st).1)
        ((data.related.foldl (relatedStep lab cid)
          (data.broaderConcept.foldl (broaderStep lab cid) st)).1) :=
      foldl_grows _ (relatedStep_grows lab cid) data.related _
    have hBsat := broaderFold_sat lab cid data.broaderConcept st
    have hprov : ∀ r ∈ data.related, ∃ dC,
        List.lookup cid ((data.broaderConcept.foldl (broaderStep lab cid) st).1) = some dC ∧
          r ∈ dC.related := by
      intro r hmem
      obtain ⟨dC, hdC, _, _, hrel⟩ := hg01.2 cid data hl
      exact ⟨dC, hdC, hrel r hmem⟩
    obtain ⟨hso, hRsat⟩ :=
      relatedFold_sat lab cid data.related (data.broaderConcept.foldl (broaderStep lab cid) st)
        hprov
    constructor
    · intro dA hdA e he
      rw [hstep] at hdA
      obtain ⟨dA₀, hdA₀, hbeq, _, _⟩ := (Grows_trans hg01 hg12).2 cid data hl
      have hid : dA₀ = dA := by
        rw [hdA] at hdA₀
        exact (Option.some.inj hdA₀).symm
      subst hid
      rw [hstep]
      exact NBack_mono hg12 (hBsat e (by rw [← hbeq]; exact he))
    · intro dA hdA e he
      rw [hstep] at hdA
      obtain ⟨dC₁, hdC₁⟩ := Grows_lookup_back hg12 hdA
      rw [hstep]
      rcases hso.2 cid dC₁ dA e hdC₁ hdA he with hold | hback
      · have hrelpres := broaderFold_related lab cid data.broaderConcept st cid
        rw [hdC₁, hl] at hrelpres
        have hre : dC₁.related = data.related := Option.some.inj hrelpres
        rw [hre] at hold
        exact hRsat e hold
      · exact hback

theorem BDone_mono {m m' : CMap} (h : Grows m m') {A : String} (hd : BDone m A) :
    BDone m' A := by
  intro dA' hdA' e he
  obtain ⟨dA, hdA⟩ := Grows_lookup_back h hdA'
  obtain ⟨dA₁, hdA₁, hbeq, _, _⟩ := h.2 A dA hdA
  have hid : dA₁ = dA' := by
    rw [hdA'] at hdA₁
    exact (Option.some.inj hdA₁).symm
  subst hid
  exact NBack_mono h (hd dA hdA e (by rw [← hbeq]; exact he))

theorem RDone_pres {m m' : CMap} (h : StepOK m m') {A : String} (hd : RDone m A) :
    RDone m' A := by
  intro dA' hdA' e he
  obtain ⟨dA, hdA⟩ := Grows_lookup_back h.1 hdA'
  rcases h.2 A dA dA' e hdA hdA' he with hold | hback
  · exact RBack_mono h.1 (hd dA hdA e hold)
  · exact hback

/-- The main induction over the snapshot of concept ids: every processed
concept is done at the end, and done-ness is preserved. -/
theorem symFold_done (lab : String → String) :
    ∀ (ids : List String) (st : CMap × RelAdded),
      (∀ A ∈ ids, BDone ((ids.foldl (symStep lab) st).1) A ∧
        RDone ((ids.foldl (symStep lab) st).1) A) ∧
      (∀ A, BDone st.1 A → RDone st.1 A →
        BDone ((ids.foldl (symStep lab) st).1) A ∧
          RDone ((ids.foldl (symStep lab) st).1) A) := by
  intro ids
  induction ids with
  | nil =>
    intro st
    exact ⟨by simp, fun A hb hr => ⟨hb, hr⟩⟩
  | cons c ids ih =>
    intro st
    obtain ⟨ih1, ih2⟩ := ih (symStep lab st c)
    constructor
    · intro A hA
      rw [List.foldl_cons]
      rcases List.mem_cons.mp hA with h | h
      · subst h
        obtain ⟨hb, hr⟩ := symStep_done lab st A
        exact ih2 A hb hr
      · exact ih1 A h
    · intro A hb hr
      rw [List.foldl_cons]
      exact ih2 A (BDone_mono (symStep_grows lab st c) hb)
        (RDone_pres (symStep_stepOK lab st c) hr)

/-- Claim C1: after symmetrization, for any concepts A and B both present in
the finalized concept set, every broader entry of A targeting B has a
narrower back-entry on B targeting A, and A has a related entry targeting B
iff B has a related entry targeting A. -/
theorem ensure_symmetric_relations_symmetry (lab : String → String) (m0 : CMap)
    (A B : String) (dA dB : Concept)
    (hA : List.lookup A (ensure_symmetric_relations lab m0).1 = some dA)
    (hB : List.lookup B (ensure_symmetric_relations lab m0).1 = some dB) :
    ((∃ e ∈ dA.broaderConcept, e.2 = B) → ∃ e ∈ dB.narrowerConcept, e.2 = A) ∧
    ((∃ e ∈ dA.related, e.2 = B) ↔ ∃ e ∈ dB.related, e.2 = A) := by
  have hg := ensure_grows lab m0
  have hmemA : A ∈ m0.map Prod.fst := by
    rw [← hg.1]
    exact mem_keys_of_lookup_some hA
  have hmemB : B ∈ m0.map Prod.fst := by
    rw [← hg.1]
    exact mem_keys_of_lookup_some hB
  have hdone := (symFold_done lab (m0.map Prod.fst) (m0, ⟨0, 0, 0⟩)).1
  have hA' : List.lookup A ((m0.map Prod.fst).foldl (symStep lab) (m0, ⟨0, 0, 0⟩)).1 =
      some dA := hA
  have hB' : List.lookup B ((m0.map Prod.fst).foldl (symStep lab) (m0, ⟨0, 0, 0⟩)).1 =
      some dB := hB
  obtain ⟨hbdA, hrdA⟩ := hdone A hmemA
  obtain ⟨hbdB, hrdB⟩ := hdone B hmemB
  constructor
  · rintro ⟨e, he, he2⟩
    obtain ⟨e', he', he'2⟩ := hbdA dA hA' e he dB (by rw [he2]; exact hB')
    exact ⟨e', he', he'2⟩
  · constructor
    · rintro ⟨e, he, he2⟩
      obtain ⟨e', he', he'2⟩ := hrdA dA hA' e he dB (by rw [he2]; exact hB')
      exact ⟨e', he', he'2⟩
    · rintro ⟨e, he, he2⟩
      obtain ⟨e', he', he'2⟩ := hrdB dB hB' e he dA (by rw [he2]; exact hA')
      exact ⟨e', he', he'2⟩

/-- Witness for C1: a two-concept set where only `a broader b` is recorded;
after symmetrization `b` carries the synthesized narrower entry. -/
theorem ensure_symmetric_relations_symmetry_witness :
    ((∃ e ∈ ({ broaderConcept := [("b", "b")] } : Concept).broaderConcept, e.2 = "b") →
      ∃ e ∈ ({ narrowerConcept := [("a", "a")] } : Concept).narrowerConcept, e.2 = "a") ∧
    ((∃ e ∈ ({ broaderConcept := [("b", "b")] } : Concept).related, e.2 = "b") ↔
      ∃ e ∈ ({ narrowerConcept := [("a", "a")] } : Concept).related, e.2 = "a") :=
  ensure_symmetric_relations_symmetry (fun s => s)
    [("a", { broaderConcept := [("b", "b")] }), ("b", {})] "a" "b"
    { broaderConcept := [("b", "b")] } { narrowerConcept := [("a", "a")] }
    (by decide) (by decide)

/-! ## Base-URI detection (claim C6) -/

theorem lastSlashIdx_none : ∀ (cs : List Char), lastSlashIdx cs = none ↔ '/' ∉ cs := by
  intro cs
  induction cs with
  | nil => simp [lastSlashIdx]
  | cons c t ih =>
    constructor
    · intro h hm
      simp only [lastSlashIdx] at h
      cases hsl : lastSlashIdx t with
      | some i => rw [hsl] at h; cases h
      | none =>
        rw [hsl] at h
        rcases List.mem_cons.mp hm with h1 | h1
        · rw [← h1] at h
          simp at h
        · exact (ih.mp hsl) h1
    · intro h
      have hc : c ≠ '/' := fun hcc => h (by rw [hcc]; exact List.mem_cons_self _ _)
      have ht : '/' ∉ t := fun hm => h (List.mem_cons_of_mem _ hm)
      simp only [lastSlashIdx, ih.mpr ht]
      exact if_neg hc

theorem splitOnChar_mem_sep {sep : Char} : ∀ {cs : List Char}, sep ∈ cs →
    ∃ p ps, splitOnChar sep cs = p :: ps ∧ ps ≠ [] := by
  intro cs
  induction cs with
  | nil => intro h; simp at h
  | cons c t ih =>
    intro h
    by_cases hc : c = sep
    · subst hc
      refine ⟨[], splitOnChar c t, ?_, splitOnChar_ne_nil c t⟩
      simp [splitOnChar]
    · have hmem : sep ∈ t := by
        rcases List.mem_cons.mp h with h1 | h1
        · exact absurd h1.symm hc
        · exact h1
      obtain ⟨p, ps, hps, hne⟩ := ih hmem
      refine ⟨c :: p, ps, ?_, hne⟩
      simp only [splitOnChar, hc, if_false, hps]

theorem joinSlash_cons_cons (p : List Char) (X : List (List Char)) (c : Char) :
    joinSlash ((c :: p) :: X) = c :: joinSlash (p :: X) := by
  cases X with
  | nil => rfl
  | cons q qs => rfl

/-- The split/join directory prefix of `detect_base_uri`'s single-subject
branch equals "everything up to and including the last slash", with `"/"`
for slashless subjects. -/
theorem dirPrefix_eq : ∀ (cs : List Char),
    joinSlash ((splitOnChar '/' cs).dropLast) ++ ['/'] =
      (match lastSlashIdx cs with
       | some i => cs.take (i + 1)
       | none => ['/']) := by
  intro cs
  induction cs with
  | nil => rfl
  | cons c t ih =>
    by_cases hc : c = '/'
    · subst hc
      by_cases hmem : '/' ∈ t
      · obtain ⟨p, ps, hps, hne⟩ := splitOnChar_mem_sep hmem
        have hsl : ∃ i, lastSlashIdx t = some i := by
          cases hsl2 : lastSlashIdx t with
          | none => exact absurd hmem ((lastSlashIdx_none t).mp hsl2)
          | some i => exact ⟨i, rfl⟩
        obtain ⟨i, hi⟩ := hsl
        have hstep : splitOnChar '/' ('/' :: t) = [] :: p :: ps := by
          simp [splitOnChar, hps]
        rw [hstep, List.dropLast_cons₂]
        have hjoin : joinSlash ([] :: (p :: ps).dropLast) =
            '/' :: joinSlash ((p :: ps).dropLast) := by
          cases ps with
          | nil => exact absurd rfl hne
          | cons q qs => rfl
        rw [hjoin]
        rw [hps, hi] at ih
        have hrhs : lastSlashIdx ('/' :: t) = some (i + 1) := by
          simp [lastSlashIdx, hi]
        rw [hrhs]
        simp only [List.cons_append, List.take_succ_cons]
        rw [ih]
      · have hslnone : lastSlashIdx t = none := (lastSlashIdx_none t).mpr hmem
        have hsplit : splitOnChar '/' t = [t] :=
          splitOnChar_no_sep (fun x hx hxeq => hmem (hxeq ▸ hx))
        have hstep : splitOnChar '/' ('/' :: t) = [] :: [t] := by
          simp [splitOnChar, hsplit]
        rw [hstep]
        have hrhs : lastSlashIdx ('/' :: t) = some 0 := by
          simp [lastSlashIdx, hslnone]
        rw [hrhs]
        rfl
    · cases hps : splitOnChar '/' t with
      | nil => exact absurd hps (splitOnChar_ne_nil '/' t)
      | cons p ps =>
        have hstep : splitOnChar '/' (c :: t) = (c :: p) :: ps := by
          simp only [splitOnChar, hc, if_false, hps]
        by_cases hmem : '/' ∈ t
        · obtain ⟨p', ps', hps', hne'⟩ := splitOnChar_mem_sep hmem
          rw [hps] at hps'
          have hpe : p' = p := (List.cons.injEq _ _ _ _ ▸ hps').1.symm
          have hpse : ps' = ps := (List.cons.injEq _ _ _ _ ▸ hps').2.symm
          have hne : ps ≠ [] := by
            rw [← hpse]
            exact hne'
          have hsl : ∃ i, lastSlashIdx t = some i := by
            cases hsl2 : lastSlashIdx t with
            | none => exact absurd hmem ((lastSlashIdx_none t).mp hsl2)
            | some i => exact ⟨i, rfl⟩
          obtain ⟨i, hi⟩ := hsl
          rw [hstep]
          have hjoin2 : joinSlash (((c :: p) :: ps).dropLast) =
              c :: joinSlash ((p :: ps).dropLast) := by
            cases ps with
            | nil => exact absurd rfl hne
            | cons q qs => exact joinSlash_cons_cons p ((q :: qs).dropLast) c
          rw [hjoin2]
          rw [hps, hi] at ih
          have hrhs : lastSlashIdx (c :: t) = some (i + 1) := by
            simp [lastSlashIdx, hi]
          rw [hrhs]
          simp only [List.cons_append, List.take_succ_cons]
          rw [ih]
        · have hslnone : lastSlashIdx t = none := (lastSlashIdx_none t).mpr hmem
          have hsplit : splitOnChar '/' t = [t] :=
            splitOnChar_no_sep (fun x hx hxeq => hmem (hxeq ▸ hx))
          rw [hsplit] at hps
          have hpe : p = t := (List.cons.injEq _ _ _ _ ▸ hps.symm).1
          have hpse : ps = [] := (List.cons.injEq _ _ _ _ ▸ hps.symm).2
          rw [hstep, hpse]
          have hrhs : lastSlashIdx (c :: t) = none := by
            simp [lastSlashIdx, hslnone, hc]
          rw [hrhs]
          rfl

theorem lcpPair_of_pref : ∀ {c v : List Char}, c <+: v → lcpPair c v = c := by
  intro c
  induction c with
  | nil => intro v _; cases v <;> rfl
  | cons a as ih =>
    intro v h
    obtain ⟨t, ht⟩ := h
    cases v with
    | nil => cases ht
    | cons b bs =>
      have hab : a = b := by
        rw [List.cons_append] at ht
        exact (List.cons.injEq _ _ _ _ ▸ ht).1
      have has : as <+: bs := by
        rw [List.cons_append] at ht
        exact ⟨t, (List.cons.injEq _ _ _ _ ▸ ht).2⟩
      subst hab
      simp [lcpPair, ih has]

theorem lcpPair_dropLast : ∀ {c v : List Char}, ¬ (c <+: v) →
    lcpPair c.dropLast v = lcpPair c v := by
  intro c
  induction c with
  | nil => intro v h; exact absurd (List.nil_prefix) h
  | cons a as ih =>
    intro v h
    cases v with
    | nil =>
      cases as with
      | nil => rfl
      | cons a' as' => rfl
    | cons b bs =>
      by_cases hab : a = b
      · subst hab
        have hnp : ¬ (as <+: bs) := by
          intro hp
          obtain ⟨t, ht⟩ := hp
          exact h ⟨t, by rw [List.cons_append, ht]⟩
        cases as with
        | nil =>
          exfalso
          exact h ⟨bs, rfl⟩
        | cons a' as' =>
          have hdl : (a :: a' :: as').dropLast = a :: (a' :: as').dropLast :=
            List.dropLast_cons₂
          rw [hdl]
          simp only [lcpPair, if_pos rfl]
          rw [ih hnp]
      · cases as with
        | nil => simp [lcpPair, hab]
        | cons a' as' =>
          have hdl : (a :: a' :: as').dropLast = a :: (a' :: as').dropLast :=
            List.dropLast_cons₂
          rw [hdl]
          simp [lcpPair, hab]

theorem shrinkCommonAux_eq_lcpPair (v : List Char) : ∀ (n : Nat) (c : List Char),
    c.length = n → shrinkCommonAux v n c = lcpPair c v := by
  intro n
  induction n with
  | zero =>
    intro c hn
    have hc : c = [] := List.eq_nil_of_length_eq_zero hn
    subst hc
    cases v <;> rfl
  | succ m ih =>
    intro c hn
    rw [shrinkCommonAux]
    by_cases hp : c.isPrefixOf v
    · rw [if_pos hp]
      exact (lcpPair_of_pref (List.isPrefixOf_iff_prefix.mp hp)).symm
    · rw [if_neg hp]
      have hnp : ¬ (c <+: v) := fun hpp => hp (List.isPrefixOf_iff_prefix.mpr hpp)
      have hlen : c.dropLast.length = m := by
        rw [List.length_dropLast, hn]
        rfl
      rw [ih c.dropLast hlen]
      exact lcpPair_dropLast hnp

/-- The shrink-from-the-right loop computes the character-wise longest
common prefix. -/
theorem shrinkCommon_eq_lcpPair (v c : List Char) : shrinkCommon v c = lcpPair c v :=
  shrinkCommonAux_eq_lcpPair v c.length c rfl

theorem shrink_fold_eq_lcp_fold (rest : List String) : ∀ (c : List Char),
    rest.foldl (fun acc w => shrinkCommon w.data acc) c =
      rest.foldl (fun acc w => lcpPair acc w.data) c := by
  induction rest with
  | nil => intro c; rfl
  | cons w rest ih =>
    intro c
    rw [List.foldl_cons, List.foldl_cons, shrinkCommon_eq_lcpPair]
    exact ih _


theorem trimToSlash_spec (c : List Char) :
    String.mk (trimToSlash c) =
      (if c.getLast? = some '/' ∨ c.getLast? = some '#' then String.mk c
       else
        match lastSlashIdx c with
        | some i => if 0 < i then String.mk (c.take (i + 1)) else String.mk c
        | none => String.mk c) := by
  unfold trimToSlash
  by_cases h : c.getLast? = some '/' ∨ c.getLast? = some '#'
  · rw [if_pos h, if_pos h]
  · rw [if_neg h, if_neg h]
    cases hsl : lastSlashIdx c with
    | none => rfl
    | some i =>
      by_cases hi : 0 < i
      · simp [hi]
      · simp [hi]

/-- Claim C6, amended: `detect_base_uri` returns the fixed default with no
prefLabel subjects; with exactly one prefLabel triple, everything up to and
including the subject's last slash (`"/"` for a slashless subject); otherwise
the character-wise longest common prefix of the subjects, trimmed back to
just after its last `/` only when it does not already end in `/` or `#` and
that slash sits at positive index — `#` is never searched for when trimming,
and the result need not end in a separator. -/
theorem detect_base_uri_spec (g : RGraph) : detect_base_uri g = detectBaseUriSpec g := by
  unfold detect_base_uri detectBaseUriSpec
  cases hsub : subjectsOfPred g skosPrefLabel with
  | nil => rfl
  | cons u rest =>
    cases rest with
    | nil =>
      show String.mk (joinSlash ((splitOnChar '/' u.data).dropLast) ++ ['/']) =
        (match lastSlashIdx u.data with
         | some i => String.mk (u.data.take (i + 1))
         | none => "/")
      have h := dirPrefix_eq u.data
      cases hsl : lastSlashIdx u.data with
      | none =>
        rw [hsl] at h
        rw [h]
      | some i =>
        rw [hsl] at h
        rw [h]
    | cons v rest' =>
      show String.mk
          (trimToSlash (List.foldl (fun c w => shrinkCommon w.data c) u.data (v :: rest'))) =
        (let common := List.foldl (fun c w => lcpPair c w.data) u.data (v :: rest')
         if common.getLast? = some '/' ∨ common.getLast? = some '#' then String.mk common
         else
          match lastSlashIdx common with
          | some i => if 0 < i then String.mk (common.take (i + 1)) else String.mk common
          | none => String.mk common)
      rw [shrink_fold_eq_lcp_fold]
      exact trimToSlash_spec _

/-- Claim C6 counterexample: two `urn:` subjects share the common prefix
`"urn:a:x"`, which contains no slash at positive index; the returned value is
kept untrimmed and ends in neither `/` nor `#`, contradicting the claim that
the result is always trimmed back to a `/` or `#` boundary. -/
theorem detect_base_uri_no_separator_cex :
    detect_base_uri
      [⟨"urn:a:x1", skosPrefLabel, RNode.lit "l1" (some "en")⟩,
       ⟨"urn:a:x2", skosPrefLabel, RNode.lit "l2" (some "en")⟩] = "urn:a:x" ∧
    ¬ (("urn:a:x" : String).data.getLast? = some '/' ∨
       ("urn:a:x" : String).data.getLast? = some '#') :=
  ⟨rfl, by decide⟩

/-! ## Untagged labels in every language's index (claim C8) -/

theorem exceptBind_ok_inv {α β : Type} {x : Except String α} {f : α → Except String β} {b : β}
    (h : (x >>= f) = Except.ok b) : ∃ a, x = Except.ok a ∧ f a = Except.ok b := by
  cases x with
  | error e => exact Except.noConfusion h
  | ok a => exact ⟨a, rfl, h⟩

theorem fold_add_extends (t0 : Char) (cid : String) :
    ∀ (TS : List (List Char)) (d : LMap),
      ∃ t, TS.foldl (fun acc tok => (add_label_to_concept (String.mk (t0 :: tok)) cid acc).2) d =
        d ++ t := by
  intro TS
  induction TS with
  | nil => intro d; exact ⟨[], by simp⟩
  | cons tok TS ih =>
    intro d
    rw [List.foldl_cons]
    obtain ⟨t1, ht1⟩ := add_label_extends (String.mk (t0 :: tok)) cid d
    obtain ⟨t2, ht2⟩ := ih ((add_label_to_concept (String.mk (t0 :: tok)) cid d).2)
    exact ⟨t1 ++ t2, by rw [ht2, ht1, List.append_assoc]⟩

theorem process_comma_separated_labels_extends (labelStr cid : String) (d : LMap) :
    ∃ t, process_comma_separated_labels labelStr cid d = d ++ t := by
  unfold process_comma_separated_labels
  by_cases hc : labelStr.data.contains ',' = true
  · rw [if_pos hc]
    cases hd : labelStr.data with
    | nil => exact ⟨[], by simp⟩
    | cons t0 rest => exact fold_add_extends t0 cid (tokensOfChars rest) d
  · rw [if_neg hc]
    exact add_label_extends labelStr cid d

theorem altHiddenStep_lit_alt (lang cid : String) (st : LangState) (tx : String)
    (l : Option String) (hcond : l = some lang ∨ l = none) :
    altHiddenStep lang cid true st (RNode.lit tx l) =
      { concepts :=
          modifyA st.concepts cid (fun c => { c with altLabel := insertSet c.altLabel tx }),
        labels := process_comma_separated_labels (String.mk ('a' :: tx.data)) cid st.labels } := by
  simp only [altHiddenStep]
  rw [if_pos hcond]
  simp

theorem altHiddenStep_lit_hid (lang cid : String) (st : LangState) (tx : String)
    (l : Option String) (hcond : l = some lang ∨ l = none) :
    altHiddenStep lang cid false st (RNode.lit tx l) =
      { st with
        labels := process_comma_separated_labels (String.mk ('h' :: tx.data)) cid st.labels } := by
  simp only [altHiddenStep]
  rw [if_pos hcond]
  simp

theorem altHiddenStep_lit_skip (lang cid : String) (ia : Bool) (st : LangState) (tx : String)
    (l : Option String) (hcond : ¬(l = some lang ∨ l = none)) :
    altHiddenStep lang cid ia st (RNode.lit tx l) = st := by
  simp only [altHiddenStep]
  rw [if_neg hcond]

theorem altHiddenStep_labels_extends (lang cid : String) (ia : Bool) (st : LangState)
    (o : RNode) : ∃ t, (altHiddenStep lang cid ia st o).labels = st.labels ++ t := by
  cases o with
  | iri u => exact ⟨[], by simp [altHiddenStep]⟩
  | lit tx l =>
    by_cases hcond : l = some lang ∨ l = none
    · cases ia with
      | true =>
        rw [altHiddenStep_lit_alt lang cid st tx l hcond]
        exact process_comma_separated_labels_extends (String.mk ('a' :: tx.data)) cid st.labels
      | false =>
        rw [altHiddenStep_lit_hid lang cid st tx l hcond]
        exact process_comma_separated_labels_extends (String.mk ('h' :: tx.data)) cid st.labels
    · rw [altHiddenStep_lit_skip lang cid ia st tx l hcond]
      exact ⟨[], by simp⟩

theorem altHidden_fold_extends (lang cid : String) (ia : Bool) :
    ∀ (os : List RNode) (st : LangState),
      ∃ t, ((os.foldl (altHiddenStep lang cid ia) st).labels) = st.labels ++ t := by
  intro os
  induction os with
  | nil => intro st; exact ⟨[], by simp⟩
  | cons o os ih =>
    intro st
    rw [List.foldl_cons]
    obtain ⟨t1, ht1⟩ := altHiddenStep_labels_extends lang cid ia st o
    obtain ⟨t2, ht2⟩ := ih (altHiddenStep lang cid ia st o)
    exact ⟨t1 ++ t2, by rw [ht2, ht1, List.append_assoc]⟩

theorem extract_labels_extends (g : RGraph) (lang s cid : String) (st : LangState) :
    ∃ t, (extract_labels g lang s cid st).labels = st.labels ++ t := by
  unfold extract_labels
  cases hfp : findPrefIn (objectsOf g s skosPrefLabel) lang with
  | none => exact ⟨[], by simp⟩
  | some t0 =>
    obtain ⟨t2, ht2⟩ := altHidden_fold_extends lang cid true (objectsOf g s skosAltLabel)
      { concepts := modifyA st.concepts cid (fun c => { c with prefLabel := some t0 }),
        labels := (add_label_to_concept (String.mk ('p' :: t0.data)) cid st.labels).2 }
    obtain ⟨t3, ht3⟩ := altHidden_fold_extends lang cid false (objectsOf g s skosHiddenLabel) _
    obtain ⟨t1, ht1⟩ := add_label_extends (String.mk ('p' :: t0.data)) cid st.labels
    refine ⟨t1 ++ (t2 ++ t3), ?_⟩
    rw [ht3, ht2]
    show (add_label_to_concept (String.mk ('p' :: t0.data)) cid st.labels).2 ++ t2 ++ t3 =
      st.labels ++ (t1 ++ (t2 ++ t3))
    rw [ht1]
    simp [List.append_assoc]

theorem process_concept_ok_labels {base : String} {g : RGraph} {lang : String}
    {st : LangState} {s : String} {st' : LangState}
    (h : process_concept base g lang st s = Except.ok st') :
    st'.labels = (extract_labels g lang s (uri_to_id base s)
      { st with concepts := setA st.concepts (uri_to_id base s) ({} : RawConcept) }).labels := by
  simp only [process_concept] at h
  obtain ⟨m2, hm2, h2⟩ := exceptBind_ok_inv h
  obtain ⟨m3, hm3, h3⟩ := exceptBind_ok_inv h2
  have h4 := Except.ok.inj h3
  rw [← h4]

theorem process_concept_labels_extends {base : String} {g : RGraph} {lang : String}
    {st : LangState} {s : String} {st' : LangState}
    (h : process_concept base g lang st s = Except.ok st') :
    ∃ t, st'.labels = st.labels ++ t := by
  rw [process_concept_ok_labels h]
  exact extract_labels_extends g lang s (uri_to_id base s)
    { st with concepts := setA st.concepts (uri_to_id base s) ({} : RawConcept) }

theorem subjects_fold_labels_extends (base : String) (g : RGraph) (lang : String) :
    ∀ (l : List String) (st stF : LangState),
      l.foldlM (process_concept base g lang) st = Except.ok stF →
      ∃ t, stF.labels = st.labels ++ t := by
  intro l
  induction l with
  | nil =>
    intro st stF h
    have h2 : st = stF := Except.ok.inj h
    rw [← h2]
    exact ⟨[], by simp⟩
  | cons a l ih =>
    intro st stF h
    rw [List.foldlM_cons] at h
    obtain ⟨st₁, h1, h2⟩ := exceptBind_ok_inv h
    obtain ⟨t1, ht1⟩ := process_concept_labels_extends h1
    obtain ⟨t2, ht2⟩ := ih st₁ stF h2
    exact ⟨t1 ++ t2, by rw [ht2, ht1, List.append_assoc]⟩

theorem subjects_fold_mem (base : String) (g : RGraph) (lang : String) :
    ∀ (l : List String) (st stF : LangState) (s : String),
      s ∈ l → l.foldlM (process_concept base g lang) st = Except.ok stF →
      ∃ pre post, process_concept base g lang pre s = Except.ok post ∧
        ∃ t, stF.labels = post.labels ++ t := by
  intro l
  induction l with
  | nil =>
    intro st stF s hs
    simp at hs
  | cons a l ih =>
    intro st stF s hs h
    rw [List.foldlM_cons] at h
    obtain ⟨st₁, h1, h2⟩ := exceptBind_ok_inv h
    rcases List.mem_cons.mp hs with he | hmem
    · subst he
      exact ⟨st, st₁, h1, subjects_fold_labels_extends base g lang l st₁ stF h2⟩
    · exact ih st₁ stF s hmem h2

theorem altHiddenStep_inserts (lang cid : String) (ia : Bool) (v : String)
    (hnc : v.data.contains ',' = false) (st : LangState) :
    ∃ k, 1 ≤ k ∧
      List.lookup (suffixKey (String.mk ((if ia then 'a' else 'h') :: v.data)) k)
        ((altHiddenStep lang cid ia st (RNode.lit v none)).labels) = some cid := by
  have hnmem : ',' ∉ v.data := by
    intro hm
    have h2 : v.data.contains ',' = true := List.elem_iff.mpr hm
    rw [hnc] at h2
    cases h2
  cases ia with
  | true =>
    have hfull : (String.mk ('a' :: v.data)).data.contains ',' = false := by
      cases hcc : (String.mk ('a' :: v.data)).data.contains ',' with
      | false => rfl
      | true =>
        have h3 := List.elem_iff.mp hcc
        rcases List.mem_cons.mp h3 with h4 | h4
        · exact absurd h4 (by decide)
        · exact absurd h4 hnmem
    have hpc : process_comma_separated_labels (String.mk ('a' :: v.data)) cid st.labels =
        (add_label_to_concept (String.mk ('a' :: v.data)) cid st.labels).2 := by
      unfold process_comma_separated_labels
      rw [hfull]
      simp
    show ∃ k, 1 ≤ k ∧
      List.lookup (suffixKey (String.mk ('a' :: v.data)) k)
        (process_comma_separated_labels (String.mk ('a' :: v.data)) cid st.labels) = some cid
    rw [hpc]
    obtain ⟨k, hk, hfst, hlk⟩ := add_label_lookup_self (String.mk ('a' :: v.data)) cid st.labels
    exact ⟨k, hk, hlk⟩
  | false =>
    have hfull : (String.mk ('h' :: v.data)).data.contains ',' = false := by
      cases hcc : (String.mk ('h' :: v.data)).data.contains ',' with
      | false => rfl
      | true =>
        have h3 := List.elem_iff.mp hcc
        rcases List.mem_cons.mp h3 with h4 | h4
        · exact absurd h4 (by decide)
        · exact absurd h4 hnmem
    have hpc : process_comma_separated_labels (String.mk ('h' :: v.data)) cid st.labels =
        (add_label_to_concept (String.mk ('h' :: v.data)) cid st.labels).2 := by
      unfold process_comma_separated_labels
      rw [hfull]
      simp
    show ∃ k, 1 ≤ k ∧
      List.lookup (suffixKey (String.mk ('h' :: v.data)) k)
        (process_comma_separated_labels (String.mk ('h' :: v.data)) cid st.labels) = some cid
    rw [hpc]
    obtain ⟨k, hk, hfst, hlk⟩ := add_label_lookup_self (String.mk ('h' :: v.data)) cid st.labels
    exact ⟨k, hk, hlk⟩

theorem altHidden_fold_inserts (lang cid : String) (ia : Bool) (v : String)
    (hnc : v.data.contains ',' = false) :
    ∀ (os : List RNode) (st : LangState), RNode.lit v none ∈ os →
      ∃ k, 1 ≤ k ∧
        List.lookup (suffixKey (String.mk ((if ia then 'a' else 'h') :: v.data)) k)
          ((os.foldl (altHiddenStep lang cid ia) st).labels) = some cid := by
  intro os
  induction os with
  | nil =>
    intro st hmem
    simp at hmem
  | cons o os ih =>
    intro st hmem
    rw [List.foldl_cons]
    rcases List.mem_cons.mp hmem with he | hmem'
    · obtain ⟨k, hk, hlk⟩ := altHiddenStep_inserts lang cid ia v hnc st
      obtain ⟨t, ht⟩ := altHidden_fold_extends lang cid ia os
        (altHiddenStep lang cid ia st (RNode.lit v none))
      rw [← he]
      exact ⟨k, hk, by rw [ht]; exact lookup_append_some hlk⟩
    · exact ih _ hmem'

theorem extract_labels_inserts (g : RGraph) (lang s cid : String) (st : LangState)
    (t0 : String) (hfp : findPrefIn (objectsOf g s skosPrefLabel) lang = some t0)
    (ia : Bool) (v : String)
    (hmem : RNode.lit v none ∈ objectsOf g s (if ia then skosAltLabel else skosHiddenLabel))
    (hnc : v.data.contains ',' = false) :
    ∃ k, 1 ≤ k ∧
      List.lookup (suffixKey (String.mk ((if ia then 'a' else 'h') :: v.data)) k)
        ((extract_labels g lang s cid st).labels) = some cid := by
  unfold extract_labels
  rw [hfp]
  cases ia with
  | true =>
    show ∃ k, 1 ≤ k ∧
      List.lookup (suffixKey (String.mk ('a' :: v.data)) k)
        (((objectsOf g s skosHiddenLabel).foldl (altHiddenStep lang cid false)
          ((objectsOf g s skosAltLabel).foldl (altHiddenStep lang cid true)
            { concepts := modifyA st.concepts cid (fun c => { c with prefLabel := some t0 }),
              labels := (add_label_to_concept (String.mk ('p' :: t0.data)) cid
                st.labels).2 })).labels) = some cid
    obtain ⟨k, hk, hlk⟩ := altHidden_fold_inserts lang cid true v hnc
      (objectsOf g s skosAltLabel)
      { concepts := modifyA st.concepts cid (fun c => { c with prefLabel := some t0 }),
        labels := (add_label_to_concept (String.mk ('p' :: t0.data)) cid st.labels).2 }
      (by simpa using hmem)
    obtain ⟨t, ht⟩ := altHidden_fold_extends lang cid false (objectsOf g s skosHiddenLabel) _
    exact ⟨k, hk, by rw [ht]; exact lookup_append_some hlk⟩
  | false =>
    show ∃ k, 1 ≤ k ∧
      List.lookup (suffixKey (String.mk ('h' :: v.data)) k)
        (((objectsOf g s skosHiddenLabel).foldl (altHiddenStep lang cid false)
          ((objectsOf g s skosAltLabel).foldl (altHiddenStep lang cid true)
            { concepts := modifyA st.concepts cid (fun c => { c with prefLabel := some t0 }),
              labels := (add_label_to_concept (String.mk ('p' :: t0.data)) cid
                st.labels).2 })).labels) = some cid
    obtain ⟨k, hk, hlk⟩ := altHidden_fold_inserts lang cid false v hnc
      (objectsOf g s skosHiddenLabel) _ (by simpa using hmem)
    exact ⟨k, hk, hlk⟩

/-- Claim C8, amended: for every language and every subject that resolves a
preferred label in it, every **alternate or hidden** untagged label literal
whose value contains no comma ends up in that language's label index under
its kind tag (possibly via a suffixed key), mapped to the concept's id.
Untagged *preferred* labels are shadowed by an exact-language tag, and
comma-containing values are split (see the counterexample). -/
theorem untagged_alt_hidden_labels_indexed (base : String) (g : RGraph) (lang s : String)
    (res : CMap × LMap × RelAdded) (t0 v : String) (ia : Bool)
    (hok : process_language base g lang = Except.ok res)
    (hs : s ∈ subjectsOfPred g skosPrefLabel)
    (hfp : findPrefIn (objectsOf g s skosPrefLabel) lang = some t0)
    (hmem : RNode.lit v none ∈ objectsOf g s (if ia then skosAltLabel else skosHiddenLabel))
    (hnc : v.data.contains ',' = false) :
    ∃ k, 1 ≤ k ∧
      List.lookup (suffixKey (String.mk ((if ia then 'a' else 'h') :: v.data)) k) res.2.1 =
        some (uri_to_id base s) := by
  simp only [process_language] at hok
  obtain ⟨stF, hfold, hret⟩ := exceptBind_ok_inv hok
  have hres := Except.ok.inj hret
  have hlab : res.2.1 = stF.labels := by
    rw [← hres]
  rw [hlab]
  obtain ⟨pre, post, hstep, t, ht⟩ := subjects_fold_mem base g lang _ _ stF s hs hfold
  have hpl := process_concept_ok_labels hstep
  obtain ⟨k, hk, hlk⟩ := extract_labels_inserts g lang s (uri_to_id base s)
    { pre with concepts := setA pre.concepts (uri_to_id base s) ({} : RawConcept) }
    t0 hfp ia v hmem hnc
  refine ⟨k, hk, ?_⟩
  rw [ht, hpl]
  exact lookup_append_some hlk

/-- Witness for the amended C8: an untagged `altLabel "AI"` lands in the
English index as `"aAI"`. -/
theorem untagged_alt_hidden_labels_indexed_witness :
    ∃ k, 1 ≤ k ∧
      List.lookup (suffixKey (String.mk ((if true then 'a' else 'h') :: "AI".data)) k)
        (([("S", ({ prefLabel := some "X", altLabel := ["AI"] } : Concept))],
          [("pX", "S"), ("aAI", "S")], (⟨0, 0, 0⟩ : RelAdded)) :
            CMap × LMap × RelAdded).2.1 =
        some (uri_to_id "http://ex.org/" "http://ex.org/S") :=
  untagged_alt_hidden_labels_indexed "http://ex.org/"
    [⟨"http://ex.org/S", skosPrefLabel, RNode.lit "X" (some "en")⟩,
     ⟨"http://ex.org/S", skosAltLabel, RNode.lit "AI" none⟩]
    "en" "http://ex.org/S"
    ([("S", { prefLabel := some "X", altLabel := ["AI"] })],
      [("pX", "S"), ("aAI", "S")], ⟨0, 0, 0⟩)
    "X" "AI" true rfl (by decide) rfl (by decide) rfl

/-- Claim C8 counterexample: an untagged **preferred** label `"Y"` on a
concept that also has an English-tagged preferred label `"X"` does not
appear in the English label index at all — the exact-language tier shadows
the untagged literal, so untagged label values are not universal across
languages for preferred labels. -/
theorem untagged_pref_label_not_universal_cex :
    (process_language "http://ex.org/"
      [⟨"http://ex.org/S", skosPrefLabel, RNode.lit "X" (some "en")⟩,
       ⟨"http://ex.org/S", skosPrefLabel, RNode.lit "Y" none⟩] "en").toOption.map
      (fun r => r.2.1) = some [("pX", "S")] ∧
    ¬ ∃ k, 1 ≤ k ∧
      List.lookup (suffixKey (String.mk ('p' :: "Y".data)) k) [("pX", "S")] = some "S" := by
  refine ⟨rfl, ?_⟩
  rintro ⟨k, hk, hlk⟩
  have hkey : suffixKey (String.mk ('p' :: "Y".data)) k = "pX" := by
    rw [lookup_cons_ite] at hlk
    by_cases h : suffixKey (String.mk ('p' :: "Y".data)) k = "pX"
    · exact h
    · rw [if_neg h] at hlk
      cases hlk
  rcases Nat.lt_or_ge k 2 with h2 | h2
  · have hk1 : k = 1 := by omega
    rw [hk1, suffixKey_one] at hkey
    exact absurd hkey (by decide)
  · have hd := @suffixKey_data (String.mk ('p' :: "Y".data)) k h2
    have hdata := congrArg String.data hkey
    rw [hd] at hdata
    have hdata2 : 'p' :: 'Y' :: '_' :: natChars k = ['p', 'X'] := hdata
    have h5 := (List.cons.inj (List.cons.inj hdata2).2).1
    exact absurd h5 (by decide)

end Skos
